import Mathlib

/-!
Verification of the Revise Scheduler plugin against its specification.

The repository contains several near-duplicate evolutions of the same
line-rewriting engine.  The definitions below are a shallow embedding of the
relevant source functions, working on `List Char` (one JavaScript string is one
list of characters).  Each JavaScript regular expression that the engine uses
is modelled by an explicit executable scanner that reproduces the leftmost,
global, case-insensitive matching behaviour of the original expression.

Embedded sources:
  - the `main.ts` variant of `src/main.js` (longest-match tag resolution,
    completion-date base, glyph stripping): namespace `MainTS`;
  - `src/verify_repeat.js` (stage-before-repeat priority, repeat tags):
    namespace `VerifyRepeat`.  That file stores the emoji marker glyphs in a
    double-encoded form; the embedding uses the intended glyphs, which the
    file uses consistently on both the regex side and the data side;
  - `src/unnamed/part_000` (`appendTagPreservingBlockId`): namespace `PartZero`.
-/

/-- Character class of the JavaScript regex token `\s` (ECMA-262 WhiteSpace
and LineTerminator characters). -/
def isWS (c : Char) : Bool :=
  let n := c.toNat
  n == 9 || n == 10 || n == 11 || n == 12 || n == 13 || n == 32 ||
  n == 160 || n == 0x1680 || (0x2000 ≤ n && n ≤ 0x200A) ||
  n == 0x2028 || n == 0x2029 || n == 0x202F || n == 0x205F ||
  n == 0x3000 || n == 0xFEFF

/-- Character class of the JavaScript regex token `\w`: ASCII letters, digits
and underscore. -/
def isWordCharJS (c : Char) : Bool :=
  let n := c.toNat
  (97 ≤ n && n ≤ 122) || (65 ≤ n && n ≤ 90) || (48 ≤ n && n ≤ 57) || n == 95

/-- Character class of the JavaScript regex token `\d`. -/
def isDig (c : Char) : Bool := 48 ≤ c.toNat && c.toNat ≤ 57

/-- Lowercasing a whole string, modelling `String.prototype.toLowerCase` on
the ASCII tokens the engine manipulates. -/
def toLowerL (cs : List Char) : List Char := cs.map Char.toLower

/-- Literal equality of the pattern with an initial segment of the input. -/
def startsWithLit : List Char → List Char → Bool
  | [], _ => true
  | _ :: _, [] => false
  | p :: ps, c :: cs => (c == p) && startsWithLit ps cs

/-- Case-insensitive version of `startsWithLit`; the pattern is given in
lowercase. -/
def startsWithCI : List Char → List Char → Bool
  | [], _ => true
  | _ :: _, [] => false
  | p :: ps, c :: cs => (c.toLower == p) && startsWithCI ps cs

/-- Substring containment, modelling `String.prototype.includes`. -/
def containsSub : List Char → List Char → Bool
  | s, pat =>
    if startsWithLit pat s then true
    else match s with
      | [] => false
      | _ :: rest => containsSub rest pat

/-- Removal of trailing whitespace, modelling `s.replace(/\s+$/, "")`. -/
def dropTrailWS (cs : List Char) : List Char :=
  ((cs.reverse).dropWhile isWS).reverse

/-- Removal of leading and trailing whitespace, modelling `s.trim()`. -/
def trimBoth (cs : List Char) : List Char :=
  dropTrailWS (cs.dropWhile isWS)

/-- Splitting on the newline character, modelling `content.split("\n")`.
The result is always nonempty. -/
def splitNl : List Char → List (List Char)
  | [] => [[]]
  | c :: rest =>
    match splitNl rest with
    | [] => [[]]
    | l :: ls => if c == '\n' then [] :: l :: ls else (c :: l) :: ls

/-- Joining with the newline character, modelling `out.join("\n")`. -/
def joinNl : List (List Char) → List Char
  | [] => []
  | [l] => l
  | l :: ls => l ++ '\n' :: joinNl ls

/-- Decimal digit character for a value below ten. -/
def digChar (n : Nat) : Char := Char.ofNat (48 + n)

/-- Decimal representation of a natural number (fuelled division loop). -/
def natToDecAux : Nat → Nat → List Char
  | 0, _ => []
  | fuel + 1, n =>
    if n < 10 then [digChar n]
    else natToDecAux fuel (n / 10) ++ [digChar (n % 10)]

/-- Decimal representation of a natural number, as `String(n)` produces it. -/
def natToDec (n : Nat) : List Char := natToDecAux (n + 1) n

/-- Zero-padding to two digits, as `moment` formats `MM` and `DD`. -/
def pad2 (n : Nat) : List Char :=
  if n < 10 then '0' :: natToDec n else natToDec n

/-- Zero-padding to four digits, as `moment` formats `YYYY`. -/
def pad4 (n : Nat) : List Char :=
  if n < 10 then '0' :: '0' :: '0' :: natToDec n
  else if n < 100 then '0' :: '0' :: natToDec n
  else if n < 1000 then '0' :: natToDec n
  else natToDec n

/-- Gregorian leap-year test. -/
def isLeap (y : Nat) : Bool :=
  y % 4 == 0 && (y % 100 != 0 || y % 400 == 0)

/-- Number of days in a month of the Gregorian calendar. -/
def daysInMonth (y m : Nat) : Nat :=
  if m == 2 then (if isLeap y then 29 else 28)
  else if m == 4 || m == 6 || m == 9 || m == 11 then 30
  else 31

/-- Successor day in the Gregorian calendar. -/
def addOneDay : Nat × Nat × Nat → Nat × Nat × Nat
  | (y, m, d) =>
    if d < daysInMonth y m then (y, m, d + 1)
    else if m < 12 then (y, m + 1, 1)
    else (y + 1, 1, 1)

/-- Calendar-day addition, modelling `moment(base).add(n, "days")`. -/
def addDaysYMD (ymd : Nat × Nat × Nat) : Nat → Nat × Nat × Nat
  | 0 => ymd
  | n + 1 => addDaysYMD (addOneDay ymd) n

/-- Numeric value of a decimal digit character. -/
def digVal (c : Char) : Nat := c.toNat - 48

/-- Parsing of an exact `YYYY-MM-DD` string. -/
def parseISO (cs : List Char) : Option (Nat × Nat × Nat) :=
  match cs with
  | [y1, y2, y3, y4, '-', m1, m2, '-', d1, d2] =>
    if isDig y1 && isDig y2 && isDig y3 && isDig y4 &&
       isDig m1 && isDig m2 && isDig d1 && isDig d2 then
      some (((digVal y1 * 10 + digVal y2) * 10 + digVal y3) * 10 + digVal y4,
            digVal m1 * 10 + digVal m2,
            digVal d1 * 10 + digVal d2)
    else none
  | _ => none

/-- Validity of a calendar date, as `moment` accepts an ISO date. -/
def validYMD (y m d : Nat) : Bool :=
  1 ≤ m && m ≤ 12 && 1 ≤ d && d ≤ daysInMonth y m

/-- Formatting of a calendar date, modelling `format("YYYY-MM-DD")`. -/
def formatISO : Nat × Nat × Nat → List Char
  | (y, m, d) => pad4 y ++ '-' :: pad2 m ++ '-' :: pad2 d

/-- Due-date computation `moment(baseISO).add(n, "days").format("YYYY-MM-DD")`.
An unparseable or invalid base date makes `moment` print `Invalid date`. -/
def addDaysISO (base : List Char) (n : Nat) : List Char :=
  match parseISO base with
  | some (y, m, d) =>
    if validYMD y m d then formatISO (addDaysYMD (y, m, d) n)
    else "Invalid date".data
  | none => "Invalid date".data

/-- Word-boundary test of `\b` placed after a word character: the following
character must not be a word character (end of input also qualifies). -/
def bndOk : List Char → Bool
  | [] => true
  | c :: _ => !(isWordCharJS c)

/-- Attempt to match the core `#revise(?:_(?:7|30|90|365))?\b` of
`REVISE_ANY_RE` at the head of the input (case-insensitive).  On success the
result is the matched token (original case) and the remaining input. -/
def matchReviseCore (cs : List Char) : Option (List Char × List Char) :=
  if startsWithCI "#revise".data cs then
    if startsWithLit "_7".data (cs.drop 7) && bndOk (cs.drop 9) then
      some (cs.take 9, cs.drop 9)
    else if startsWithLit "_30".data (cs.drop 7) && bndOk (cs.drop 10) then
      some (cs.take 10, cs.drop 10)
    else if startsWithLit "_90".data (cs.drop 7) && bndOk (cs.drop 10) then
      some (cs.take 10, cs.drop 10)
    else if startsWithLit "_365".data (cs.drop 7) && bndOk (cs.drop 11) then
      some (cs.take 11, cs.drop 11)
    else if startsWithLit "_".data (cs.drop 7) then none
    else if bndOk (cs.drop 7) then some (cs.take 7, cs.drop 7) else none
  else none

theorem matchReviseCore_length {cs tok rest : List Char}
    (h : matchReviseCore cs = some (tok, rest)) : rest.length ≤ cs.length := by
  unfold matchReviseCore at h
  split_ifs at h <;>
    (injection h with h; injection h with h1 h2; subst h2; simp)

/-- Global scan of `REVISE_ANY_RE` at positions after the start of the line:
a match must begin with one `\s` character followed by the core.  Mirrors the
`exec` loop of `getReviseTagFromLine`; the pushed token is `m[0].trim()`,
i.e. the tag without its leading whitespace. -/
def reviseScanAfterF : Nat → List Char → List (List Char)
  | 0, _ => []
  | _ + 1, [] => []
  | fuel + 1, c :: rest =>
    if isWS c then
      match matchReviseCore rest with
      | some (tok, rest2) => tok :: reviseScanAfterF fuel rest2
      | none => reviseScanAfterF fuel rest
    else reviseScanAfterF fuel rest

/-- Wrapper running the scan with sufficient fuel. -/
def reviseScanAfter (cs : List Char) : List (List Char) :=
  reviseScanAfterF cs.length cs

/-- All tokens collected by the `exec` loop over `REVISE_ANY_RE` (the `(^|\s)`
group lets a match start at the very beginning of the line). -/
def reviseMatches (line : List Char) : List (List Char) :=
  match matchReviseCore line with
  | some (tok, rest) => tok :: reviseScanAfter rest
  | none => reviseScanAfter line

/-- Global replacement `s.replace(REVISE_ANY_RE, "")` at positions after the
start: each match (leading whitespace plus tag) is deleted. -/
def reviseStripAfterF : Nat → List Char → List Char
  | 0, cs => cs
  | _ + 1, [] => []
  | fuel + 1, c :: rest =>
    if isWS c then
      match matchReviseCore rest with
      | some (_, rest2) => reviseStripAfterF fuel rest2
      | none => c :: reviseStripAfterF fuel rest
    else c :: reviseStripAfterF fuel rest

/-- Wrapper running the replacement scan with sufficient fuel. -/
def reviseStripAfter (cs : List Char) : List Char :=
  reviseStripAfterF cs.length cs

/-- Global replacement `s.replace(REVISE_ANY_RE, "")`. -/
def reviseStrip (cs : List Char) : List Char :=
  match matchReviseCore cs with
  | some (_, rest) => reviseStripAfter rest
  | none => reviseStripAfter cs

/-- Match of `\d{4}-\d{2}-\d{2}` at the head of the input; on success returns
the rest of the input after the ten matched characters. -/
def matchISOAt (cs : List Char) : Option (List Char) :=
  match cs with
  | y1 :: y2 :: y3 :: y4 :: '-' :: m1 :: m2 :: '-' :: d1 :: d2 :: rest =>
    if isDig y1 && isDig y2 && isDig y3 && isDig y4 &&
       isDig m1 && isDig m2 && isDig d1 && isDig d2 then some rest else none
  | _ => none

theorem matchISOAt_length {cs rest : List Char} (h : matchISOAt cs = some rest) :
    rest.length + 10 = cs.length := by
  unfold matchISOAt at h
  split at h
  · split_ifs at h
    injection h with h
    subst h
    simp only [List.length_cons]
  · exact absurd h (by simp)

/-- Match of `\s*G\s*\d{4}-\d{2}-\d{2}` at the current position, where `G` is
any of the glyphs in `gs`; the leading `\s*` greedily takes the whitespace run
starting here, which must be immediately followed by a glyph. -/
def matchGlyphDateAt (gs : List Char) (cs : List Char) : Option (List Char) :=
  match cs.dropWhile isWS with
  | g :: r2 =>
    if gs.contains g then matchISOAt (r2.dropWhile isWS) else none
  | [] => none

theorem length_dropWhile_le' (p : Char → Bool) (l : List Char) :
    (l.dropWhile p).length ≤ l.length := by
  induction l with
  | nil => simp [List.dropWhile]
  | cons c rest ih =>
    by_cases h : p c <;> simp [List.dropWhile, h] <;> omega

theorem matchGlyphDateAt_length {gs cs rest : List Char}
    (h : matchGlyphDateAt gs cs = some rest) : rest.length < cs.length := by
  unfold matchGlyphDateAt at h
  split at h
  · rename_i g r2 heq
    split_ifs at h
    have h10 := matchISOAt_length h
    have h2 : (r2.dropWhile isWS).length ≤ r2.length := length_dropWhile_le' _ _
    have h3 : (g :: r2).length ≤ cs.length := heq ▸ length_dropWhile_le' isWS cs
    simp at h3
    omega
  · exact absurd h (by simp)

/-- Global replacement of every `\s*G\s*\d{4}-\d{2}-\d{2}` token, modelling
`s.replace(RE, "")` for the due (`📅`, `⏳`), created (`➕`) and done (`✅`)
token expressions, which differ only in their glyph alternatives `gs`. -/
def stripGlyphDatesF (gs : List Char) : Nat → List Char → List Char
  | 0, cs => cs
  | _ + 1, [] => []
  | fuel + 1, c :: rest =>
    match matchGlyphDateAt gs (c :: rest) with
    | some rest2 => stripGlyphDatesF gs fuel rest2
    | none => c :: stripGlyphDatesF gs fuel rest

/-- Wrapper running the replacement scan with sufficient fuel. -/
def stripGlyphDates (gs : List Char) (cs : List Char) : List Char :=
  stripGlyphDatesF gs cs.length cs

/-- First capture of `DONE_DATE_CAPTURE_RE = /✅\s*(\d{4}-\d{2}-\d{2})/`:
the ISO date following the first well-formed done marker, if any. -/
def completionDateOf : List Char → Option (List Char)
  | [] => none
  | c :: rest =>
    if c == '✅' then
      let r2 := rest.dropWhile isWS
      match matchISOAt r2 with
      | some _ => some (r2.take 10)
      | none => completionDateOf rest
    else completionDateOf rest

/-- Attempt to match the core `#repeat_(\d+)\b` of `REPEAT_ANY_RE` at the head
of the input (case-insensitive on the letters).  On success returns the
numeric value of the digits and the remaining input. -/
def matchRepeatCore (cs : List Char) : Option (Nat × List Char) :=
  if startsWithCI "#repeat_".data cs then
    let ds := (cs.drop 8).takeWhile isDig
    let r2 := (cs.drop 8).dropWhile isDig
    if ds.isEmpty then none
    else if bndOk r2 then some (ds.foldl (fun a c => a * 10 + digVal c) 0, r2)
    else none
  else none

/-- First match of the non-global `REPEAT_ANY_RE = /(^|\s)#repeat_(\d+)\b/i`:
the parsed digit value of the leftmost occurrence. -/
def repeatFindAfter : List Char → Option Nat
  | [] => none
  | c :: rest =>
    if isWS c then
      match matchRepeatCore rest with
      | some (n, _) => some n
      | none => repeatFindAfter rest
    else repeatFindAfter rest

/-- Leftmost `REPEAT_ANY_RE` match value, including the `^` alternative. -/
def repeatFind (cs : List Char) : Option Nat :=
  match matchRepeatCore cs with
  | some (n, _) => some n
  | none => repeatFindAfter cs

/-- Replacement of the first `REPEAT_ANY_RE` match by the empty string
(`s.replace(REPEAT_ANY_RE, "")` with a non-global regex), at positions after
the start of the line. -/
def repeatStripAfter : List Char → List Char
  | [] => []
  | c :: rest =>
    if isWS c then
      match matchRepeatCore rest with
      | some (_, rest2) => rest2
      | none => c :: repeatStripAfter rest
    else c :: repeatStripAfter rest

/-- Replacement of the first `REPEAT_ANY_RE` match by the empty string. -/
def repeatStripFirst (cs : List Char) : List Char :=
  match matchRepeatCore cs with
  | some (_, rest) => rest
  | none => repeatStripAfter cs

/-- Decomposition of a match of `TASK_DONE_RE = /^\s*-\s*\[x\]\s+/i`: leading
whitespace, the dash, whitespace, the checkbox letter (`x` or `X`), the
greedy nonempty whitespace run after `]`, and the unmatched remainder. -/
structure DoneHead where
  w1 : List Char
  w2 : List Char
  xc : Char
  w3 : List Char
  rest : List Char

/-- Matching of `TASK_DONE_RE` against the start of a line. -/
def taskDoneSplit (line : List Char) : Option DoneHead :=
  match line.dropWhile isWS with
  | '-' :: r2 =>
    match r2.dropWhile isWS with
    | '[' :: c :: ']' :: r4 =>
      if c.toLower == 'x' then
        if (r4.takeWhile isWS).isEmpty then none
        else some ⟨line.takeWhile isWS, r2.takeWhile isWS, c,
          r4.takeWhile isWS, r4.dropWhile isWS⟩
      else none
    | _ => none
  | _ => none

/-- Test of `TASK_DONE_RE`. -/
def taskDoneTest (line : List Char) : Bool := (taskDoneSplit line).isSome

/-- Test of `TASK_OPEN_RE = /^\s*-\s*\[\s\]\s+/`. -/
def taskOpenTest (line : List Char) : Bool :=
  match line.dropWhile isWS with
  | '-' :: r2 =>
    match r2.dropWhile isWS with
    | '[' :: c :: ']' :: r4 =>
      isWS c && (match r4 with | [] => false | d :: _ => isWS d)
    | _ => false
  | _ => false

/-- Replacement `line.replace(TASK_DONE_RE, (m) => m.replace("[x]", "[ ]"))`:
the checked box becomes unchecked, but only when the matched letter is the
lowercase literal `x`, because the inner replace searches case-sensitively. -/
def doneToOpen (line : List Char) : List Char :=
  match taskDoneSplit line with
  | some h =>
    if h.xc == 'x' then
      h.w1 ++ '-' :: (h.w2 ++ '[' :: ' ' :: ']' :: (h.w3 ++ h.rest))
    else line
  | none => line

/-- Test of the anchored-token regex ``(^|\s)tag(\s|$)`` (case-insensitive)
at the current position: the tag must be followed by whitespace or the end. -/
def tokenFollowsCI (tag cs : List Char) : Bool :=
  startsWithCI tag cs &&
    (match cs.drop tag.length with | [] => true | d :: _ => isWS d)

/-- Occurrence of ``(^|\s)tag(\s|$)`` at a position after the line start. -/
def hasTokenCIAfter (tag : List Char) : List Char → Bool
  | [] => false
  | c :: rest => (isWS c && tokenFollowsCI tag rest) || hasTokenCIAfter tag rest

/-- Test of ``new RegExp(`(^|\s)tag(\s|$)`, "i")`` on a whole line. -/
def hasTokenCI (tag cs : List Char) : Bool :=
  tokenFollowsCI tag cs || hasTokenCIAfter tag cs

/-- Character class `[A-Za-z0-9._-]` of the block-reference identifier. -/
def isBlockIdChar (c : Char) : Bool :=
  let n := c.toNat
  (97 ≤ n && n ≤ 122) || (65 ≤ n && n ≤ 90) || (48 ≤ n && n ≤ 57) ||
  n == 46 || n == 95 || n == 45

/-- Match of `/\s\^[A-Za-z0-9._-]+$/` against the end of a line: on success,
the part before the match, the matched whitespace character, and the
identifier after the caret. -/
def blockIdSuffix (s : List Char) : Option (List Char × Char × List Char) :=
  let rev := s.reverse
  let idRev := rev.takeWhile isBlockIdChar
  match rev.dropWhile isBlockIdChar with
  | '^' :: w :: front =>
    if idRev.isEmpty then none
    else if isWS w then some (front.reverse, w, idRev.reverse)
    else none
  | _ => none

/-- Stage record of the revision ladder: successor tag and day offset. -/
structure Stage where
  nextTag : List Char
  plusDays : Nat
deriving DecidableEq

namespace MainTS

/-- Ladder table `STAGES` of the `main.ts` variant (self-looping at the
yearly stage). -/
def STAGES : List (List Char × Stage) :=
  [("#revise".data, ⟨"#revise_7".data, 7⟩),
   ("#revise_7".data, ⟨"#revise_30".data, 30⟩),
   ("#revise_30".data, ⟨"#revise_90".data, 90⟩),
   ("#revise_90".data, ⟨"#revise_365".data, 365⟩),
   ("#revise_365".data, ⟨"#revise_365".data, 365⟩)]

/-- Property access `STAGES[tag]` on the ladder object. -/
def stageLookup (tag : List Char) : Option Stage :=
  (STAGES.find? (fun p => p.1 == tag)).map Prod.snd

/-- Scan list `REVISE_TAGS` of the `main.ts` variant. -/
def REVISE_TAGS : List (List Char) :=
  ["#revise_365".data, "#revise_90".data, "#revise_30".data,
   "#revise_7".data, "#revise".data]

/-- Sentinel token `NEXT_SCHEDULED_TAG`. -/
def NEXT_SCHEDULED_TAG : List Char := "#nextscheduled".data

/-- Translation of `getReviseTagFromLine`: collect every `REVISE_ANY_RE`
occurrence, stable-sort by descending length and take the first (modelled by
a fold that keeps the earliest longest token), lowercase it, and canonicalize
against `REVISE_TAGS`. -/
def getReviseTagFromLine (line : List Char) : Option (List Char) :=
  match reviseMatches line with
  | [] => none
  | m :: ms =>
    let longest := toLowerL (ms.foldl (fun b s => if s.length > b.length then s else b) m)
    some ((REVISE_TAGS.find? (fun t => toLowerL t == longest)).getD longest)

/-- Translation of `getCompletionBaseDateISO`: prefer the captured completion
date, else the injected current date (`moment().format("YYYY-MM-DD")`). -/
def getCompletionBaseDateISO (now line : List Char) : List Char :=
  match completionDateOf line with
  | some d => d
  | none => now

/-- Translation of `buildNextOpenTaskLine` of the `main.ts` variant. -/
def buildNextOpenTaskLine (original nextTag dueISO : List Char) : List Char :=
  let s1 := doneToOpen original
  let s2 := reviseStrip s1
  let s3 := stripGlyphDates ['📅', '⏳'] s2
  let s4 := stripGlyphDates ['➕'] s3
  let s5 := stripGlyphDates ['✅'] s4
  let s6 := dropTrailWS s5
  let s7 := if taskOpenTest s6 then s6
            else s6.takeWhile isWS ++ "- [ ] ".data ++ s6.dropWhile isWS
  trimBoth (s7 ++ ' ' :: '⏳' :: ' ' :: (dueISO ++ ' ' :: nextTag))

/-- Per-line body of the `main.ts` `processFile` loop: `none` models the
`continue` paths, `some (marked, next)` the rewriting of an eligible line. -/
def evalLine (now line : List Char) : Option (List Char × List Char) :=
  if !taskDoneTest line then none
  else if containsSub line NEXT_SCHEDULED_TAG then none
  else match getReviseTagFromLine line with
    | none => none
    | some tag =>
      match stageLookup (toLowerL tag) with
      | none => none
      | some stage =>
        let baseISO := getCompletionBaseDateISO now line
        let dueISO := addDaysISO baseISO stage.plusDays
        let nextLine := buildNextOpenTaskLine line stage.nextTag dueISO
        let marked := if containsSub line NEXT_SCHEDULED_TAG then line
                      else dropTrailWS (line ++ ' ' :: NEXT_SCHEDULED_TAG)
        some (marked, nextLine)

/-- Output sequence and mutation flag of the `processFile` loop over the
lines of a document. -/
def processLines (now : List Char) : List (List Char) → List (List Char) × Bool
  | [] => ([], false)
  | l :: ls =>
    let r := processLines now ls
    match evalLine now l with
    | none => (l :: r.1, r.2)
    | some (marked, next) => (marked :: next :: r.1, true)

/-- Whole-document transformation of `processFile`: split on newlines, run
the loop, and write back exactly when something mutated and the rejoined text
differs.  The first component is the resulting document text, the second is
whether `vault.modify` was called. -/
def processDocument (now content : List Char) : List Char × Bool :=
  let r := processLines now (splitNl content)
  let newContent := joinNl r.1
  if r.2 ∧ newContent ≠ content then (newContent, true) else (content, false)

end MainTS

namespace VerifyRepeat

/-- Ladder table `STAGES` of `verify_repeat.js` (identical to the `main.ts`
table). -/
def STAGES : List (List Char × Stage) :=
  [("#revise".data, ⟨"#revise_7".data, 7⟩),
   ("#revise_7".data, ⟨"#revise_30".data, 30⟩),
   ("#revise_30".data, ⟨"#revise_90".data, 90⟩),
   ("#revise_90".data, ⟨"#revise_365".data, 365⟩),
   ("#revise_365".data, ⟨"#revise_365".data, 365⟩)]

/-- Property access `STAGES[tag]`. -/
def stageLookup (tag : List Char) : Option Stage :=
  (STAGES.find? (fun p => p.1 == tag)).map Prod.snd

/-- Key list `Object.keys(STAGES)` in insertion order, used by the
canonicalization step of this variant of `getReviseTagFromLine`. -/
def stageKeys : List (List Char) := STAGES.map Prod.fst

/-- Translation of `getReviseTagFromLine` of `verify_repeat.js`; identical to
the `main.ts` version except that canonicalization scans `Object.keys(STAGES)`
instead of the `REVISE_TAGS` array. -/
def getReviseTagFromLine (line : List Char) : Option (List Char) :=
  match reviseMatches line with
  | [] => none
  | m :: ms =>
    let longest := toLowerL (ms.foldl (fun b s => if s.length > b.length then s else b) m)
    some ((stageKeys.find? (fun t => toLowerL t == longest)).getD longest)

/-- Translation of `getRepeatTagFromLine`: leftmost `REPEAT_ANY_RE` match,
rejected unless its digits parse to a positive count; the returned tag is
rebuilt as `#repeat_` followed by the parsed number. -/
def getRepeatTagFromLine (line : List Char) : Option (List Char × Nat) :=
  match repeatFind line with
  | none => none
  | some days =>
    if days == 0 then none
    else some ("#repeat_".data ++ natToDec days, days)

/-- Translation of `buildNextOpenTaskLine` of `verify_repeat.js`: like the
`main.ts` version but with the two added non-global repeat-tag removals. -/
def buildNextOpenTaskLine (original nextTag dueISO : List Char) : List Char :=
  let s1 := doneToOpen original
  let s2 := reviseStrip s1
  let s2r := repeatStripFirst s2
  let s3 := stripGlyphDates ['📅', '⏳'] s2r
  let s4 := stripGlyphDates ['➕'] s3
  let s5 := stripGlyphDates ['✅'] s4
  let s5r := repeatStripFirst s5
  let s6 := dropTrailWS s5r
  let s7 := if taskOpenTest s6 then s6
            else s6.takeWhile isWS ++ "- [ ] ".data ++ s6.dropWhile isWS
  trimBoth (s7 ++ ' ' :: '⏳' :: ' ' :: (dueISO ++ ' ' :: nextTag))

/-- Translation of `getCompletionBaseDateISO` (same as the `main.ts` one). -/
def getCompletionBaseDateISO (now line : List Char) : List Char :=
  match completionDateOf line with
  | some d => d
  | none => now

/-- Translation of `processLine`: the engine entry point of
`verify_repeat.js`.  A resolvable stage tag takes priority; only when no
stage resolves is the repeat tag consulted. -/
def processLine (now line : List Char) : Option (List Char) :=
  if !taskDoneTest line then none
  else if containsSub line MainTS.NEXT_SCHEDULED_TAG then none
  else
    let tag := getReviseTagFromLine line
    let repeatInfo := getRepeatTagFromLine line
    let resolved : Option (List Char × Nat) :=
      match tag with
      | some t =>
        match stageLookup (toLowerL t) with
        | some stage => some (stage.nextTag, stage.plusDays)
        | none =>
          match repeatInfo with
          | some (rt, rd) => some (rt, rd)
          | none => none
      | none =>
        match repeatInfo with
        | some (rt, rd) => some (rt, rd)
        | none => none
    match resolved with
    | none => none
    | some (nextTag, plusDays) =>
      let baseISO := getCompletionBaseDateISO now line
      let dueISO := addDaysISO baseISO plusDays
      some (buildNextOpenTaskLine line nextTag dueISO)

end VerifyRepeat

namespace PartZero

/-- Translation of `appendTagPreservingBlockId` from the `part_000` variant:
skip when the tag token is already present; otherwise trim trailing
whitespace and insert the tag before a trailing `^blockid` suffix when one
exists, else append it at the end. -/
def appendTagPreservingBlockId (line rawTag : List Char) : List Char :=
  let tag := trimBoth rawTag
  if hasTokenCI (toLowerL tag) line then line
  else
    let s := dropTrailWS line
    match blockIdSuffix s with
    | some (front, w, id) => front ++ ' ' :: (tag ++ w :: '^' :: id)
    | none => s ++ ' ' :: tag

end PartZero

/-! Helper lemmas about characters. -/

theorem char_eq_of_toNat_eq {c d : Char} (h : c.toNat = d.toNat) : c = d := by
  unfold Char.toNat at h
  apply Char.ext
  exact UInt32.toNat.inj h

theorem toNat_ofNat_small {n : Nat} (h : n < 0xD800) : (Char.ofNat n).toNat = n := by
  rw [Char.ofNat, dif_pos (Or.inl h)]
  simp [Char.ofNatAux, Char.toNat, UInt32.toNat, Nat.toUInt32, UInt32.ofNat]

theorem toLower_toNat (c : Char) :
    (Char.toLower c).toNat =
      if 65 ≤ c.toNat ∧ c.toNat ≤ 90 then c.toNat + 32 else c.toNat := by
  rw [Char.toLower]
  split
  · rename_i h
    exact toNat_ofNat_small (by omega)
  · rfl

theorem toLower_eq_of_toNat {c : Char} {d : Char} (hd : d.toNat < 65 ∨ 122 < d.toNat)
    (hne : c ≠ d) : Char.toLower c ≠ d := by
  intro h
  have hn := congrArg Char.toNat h
  rw [toLower_toNat] at hn
  split at hn
  · omega
  · exact hne (char_eq_of_toNat_eq hn)

theorem toLower_ne_hash {c : Char} (h : c ≠ '#') : Char.toLower c ≠ '#' :=
  toLower_eq_of_toNat (by left; decide) h

theorem toLower_ws {c : Char} (h : isWS c = true) : Char.toLower c = c := by
  apply char_eq_of_toNat_eq
  rw [toLower_toNat, if_neg]
  simp only [isWS] at h
  simp only [Bool.or_eq_true, beq_iff_eq, decide_eq_true_eq, Bool.and_eq_true] at h
  omega

/-! Lemmas about the longest-first selection fold of `getReviseTagFromLine`. -/

theorem pickFold_mem (ms : List (List Char)) :
    ∀ m : List Char,
      (ms.foldl (fun b s => if s.length > b.length then s else b) m) ∈ m :: ms := by
  induction ms with
  | nil => intro m; simp
  | cons x xs ih =>
    intro m
    simp only [List.foldl_cons]
    have h := ih (if x.length > m.length then x else m)
    rcases List.mem_cons.mp h with h1 | h1
    · rw [h1]
      split <;> simp
    · simp [List.mem_cons, h1]

theorem pickFold_acc_le (ms : List (List Char)) :
    ∀ m : List Char,
      m.length ≤ (ms.foldl (fun b s => if s.length > b.length then s else b) m).length := by
  induction ms with
  | nil => intro m; simp
  | cons y ys ih =>
    intro m
    simp only [List.foldl_cons]
    refine le_trans ?_ (ih _)
    split <;> omega

theorem pickFold_le (ms : List (List Char)) :
    ∀ m x : List Char, x ∈ m :: ms →
      x.length ≤ (ms.foldl (fun b s => if s.length > b.length then s else b) m).length := by
  induction ms with
  | nil =>
    intro m x hx
    have hxm : x = m := by simpa using hx
    simp [hxm]
  | cons y ys ih =>
    intro m x hx
    simp only [List.foldl_cons]
    rcases List.mem_cons.mp hx with h1 | h1
    · subst h1
      refine le_trans ?_ (pickFold_acc_le ys _)
      split <;> omega
    · rcases List.mem_cons.mp h1 with h2 | h2
      · subst h2
        refine le_trans ?_ (pickFold_acc_le ys _)
        split <;> omega
      · exact ih _ x (List.mem_cons_of_mem _ h2)

theorem toLowerL_length (u : List Char) : (toLowerL u).length = u.length :=
  List.length_map u Char.toLower

/-- C1: tag resolution picks the lexically longest match.  For every completed
task line whose scheduling-tag-shaped substrings are only occurrences of
`#revise` and `#revise_90` (in lowercase), with `#revise_90` present,
`getReviseTagFromLine` resolves `#revise_90` and never `#revise`; the stage
used for due-date computation and nextTag is therefore the `#revise_90` one,
namely nextTag `#revise_365` with 365 days. -/
theorem longest_tag_wins (line : List Char)
    (h90 : "#revise_90".data ∈ (reviseMatches line).map toLowerL)
    (hall : ∀ t ∈ (reviseMatches line).map toLowerL,
      t = "#revise".data ∨ t = "#revise_90".data) :
    MainTS.getReviseTagFromLine line = some "#revise_90".data ∧
    MainTS.getReviseTagFromLine line ≠ some "#revise".data ∧
    MainTS.stageLookup "#revise_90".data = some ⟨"#revise_365".data, 365⟩ := by
  cases hm : reviseMatches line with
  | nil =>
    rw [hm] at h90
    simp at h90
  | cons m ms =>
    rw [hm] at h90 hall
    obtain ⟨x, hx, hx90⟩ := List.mem_map.mp h90
    have hxlen : x.length = 10 := by
      have := congrArg List.length hx90
      rw [toLowerL_length] at this
      simpa using this
    have hFmem := pickFold_mem ms m
    have hFle := pickFold_le ms m x hx
    set F := ms.foldl (fun b s => if s.length > b.length then s else b) m with hF
    have hFlow : toLowerL F ∈ (m :: ms).map toLowerL := List.mem_map_of_mem toLowerL hFmem
    have hF90 : toLowerL F = "#revise_90".data := by
      rcases hall _ hFlow with h | h
      · exfalso
        have hFlen : F.length = 7 := by
          have := congrArg List.length h
          rw [toLowerL_length] at this
          simpa using this
        omega
      · exact h
    have hres : MainTS.getReviseTagFromLine line =
        some ((MainTS.REVISE_TAGS.find? (fun t => toLowerL t == toLowerL F)).getD
          (toLowerL F)) := by
      unfold MainTS.getReviseTagFromLine
      rw [hm]
    rw [hF90] at hres
    have hfind : (MainTS.REVISE_TAGS.find?
        (fun t => toLowerL t == "#revise_90".data)).getD "#revise_90".data =
        "#revise_90".data := by decide
    rw [hfind] at hres
    refine ⟨hres, ?_, by decide⟩
    rw [hres]
    intro hcontra
    have := Option.some.inj hcontra
    exact absurd this (by decide)

theorem longest_tag_wins_witness :
    ("#revise_90".data ∈
      (reviseMatches "- [x] Task #revise also #revise_90".data).map toLowerL) ∧
    MainTS.getReviseTagFromLine "- [x] Task #revise also #revise_90".data =
      some "#revise_90".data :=
  ⟨by decide, (longest_tag_wins _ (by decide) (by decide)).1⟩

/-- C2: base-date precedence.  For every eligible completed line that carries
a completion-date token, the due date fed into the generated line is the
completion date shifted by the resolved plusDays, for every injected current
date: the result of `evalLine` does not depend on the injected value at all.
The injected date is used as base only when no completion-date token is
present, which is the `completionDateOf line = none` branch of
`getCompletionBaseDateISO`. -/
theorem completion_date_precedence (now nowB line b t : List Char) (s : Stage)
    (hd : taskDoneTest line = true)
    (hns : containsSub line MainTS.NEXT_SCHEDULED_TAG = false)
    (ht : MainTS.getReviseTagFromLine line = some t)
    (hs : MainTS.stageLookup (toLowerL t) = some s)
    (hb : completionDateOf line = some b) :
    MainTS.evalLine now line =
      some (dropTrailWS (line ++ ' ' :: MainTS.NEXT_SCHEDULED_TAG),
            MainTS.buildNextOpenTaskLine line s.nextTag (addDaysISO b s.plusDays)) ∧
    MainTS.evalLine now line = MainTS.evalLine nowB line := by
  have h1 : ∀ n : List Char, MainTS.evalLine n line =
      some (dropTrailWS (line ++ ' ' :: MainTS.NEXT_SCHEDULED_TAG),
            MainTS.buildNextOpenTaskLine line s.nextTag (addDaysISO b s.plusDays)) := by
    intro n
    have hbase : MainTS.getCompletionBaseDateISO n line = b := by
      unfold MainTS.getCompletionBaseDateISO
      rw [hb]
    unfold MainTS.evalLine
    rw [hd, hns, ht]
    simp only [hs, hbase, Bool.not_true, Bool.false_eq_true, if_false]
  exact ⟨h1 now, (h1 now).trans (h1 nowB).symm⟩

theorem completion_date_precedence_witness :
    completionDateOf "- [x] Task 3 #revise ✅ 2023-01-01".data =
      some "2023-01-01".data ∧
    MainTS.evalLine "1999-12-31".data "- [x] Task 3 #revise ✅ 2023-01-01".data =
      MainTS.evalLine "2025-06-06".data "- [x] Task 3 #revise ✅ 2023-01-01".data ∧
    MainTS.evalLine "1999-12-31".data "- [x] Task 3 #revise ✅ 2023-01-01".data =
      some ("- [x] Task 3 #revise ✅ 2023-01-01 #nextscheduled".data,
            "- [ ] Task 3 ⏳ 2023-01-08 #revise_7".data) :=
  ⟨by decide,
   (completion_date_precedence "1999-12-31".data "2025-06-06".data
     "- [x] Task 3 #revise ✅ 2023-01-01".data "2023-01-01".data "#revise".data
     ⟨"#revise_7".data, 7⟩ (by decide) (by decide) (by decide) (by decide) (by decide)).2,
   ((completion_date_precedence "1999-12-31".data "2025-06-06".data
     "- [x] Task 3 #revise ✅ 2023-01-01".data "2023-01-01".data "#revise".data
     ⟨"#revise_7".data, 7⟩ (by decide) (by decide) (by decide) (by decide)
     (by decide)).1).trans (by decide)⟩

/-- C10: the already-processed gate is a plain substring test.  Any line whose
text contains the character sequence of the sentinel anywhere, even embedded
in a longer word, is left unchanged by the processing loop and generates no
successor, regardless of any other eligibility. -/
theorem sentinel_gate_is_substring_test (now line : List Char)
    (h : containsSub line MainTS.NEXT_SCHEDULED_TAG = true) :
    MainTS.evalLine now line = none ∧
    MainTS.processLines now [line] = ([line], false) := by
  have h1 : MainTS.evalLine now line = none := by
    unfold MainTS.evalLine
    cases hdt : taskDoneTest line
    · simp
    · rw [h]
      simp
  refine ⟨h1, ?_⟩
  simp [MainTS.processLines, h1]

theorem sentinel_gate_is_substring_test_witness :
    containsSub "- [x] done task #revise_30 word#nextscheduledword ✅ 2023-01-01".data
      MainTS.NEXT_SCHEDULED_TAG = true ∧
    MainTS.evalLine "2023-02-01".data
      "- [x] done task #revise_30 word#nextscheduledword ✅ 2023-01-01".data = none :=
  ⟨by decide,
   (sentinel_gate_is_substring_test "2023-02-01".data _ (by decide)).1⟩

/-- C7: an invalid repeat count yields no match.  When a line has no revise
tag occurrence and its leftmost repeat-tag occurrence parses to zero (or there
is no repeat occurrence at all, which is also how a non-numeric count fails
the digit-matching), `getRepeatTagFromLine` returns nothing and the engine
returns no result, with no error channel at all. -/
theorem invalid_repeat_is_no_match (now line : List Char)
    (h1 : reviseMatches line = [])
    (h2 : repeatFind line = some 0 ∨ repeatFind line = none) :
    VerifyRepeat.getRepeatTagFromLine line = none ∧
    VerifyRepeat.processLine now line = none := by
  have hrt : VerifyRepeat.getRepeatTagFromLine line = none := by
    unfold VerifyRepeat.getRepeatTagFromLine
    rcases h2 with h | h <;> rw [h] <;> simp
  have hrev : VerifyRepeat.getReviseTagFromLine line = none := by
    unfold VerifyRepeat.getReviseTagFromLine
    rw [h1]
  refine ⟨hrt, ?_⟩
  unfold VerifyRepeat.processLine
  rw [hrev, hrt]
  cases taskDoneTest line <;>
    cases containsSub line MainTS.NEXT_SCHEDULED_TAG <;> simp

theorem invalid_repeat_is_no_match_witness :
    (repeatFind "- [x] Water plants #repeat_0".data = some 0 ∨
      repeatFind "- [x] Water plants #repeat_0".data = none) ∧
    VerifyRepeat.processLine "2023-02-01".data
      "- [x] Water plants #repeat_0".data = none :=
  ⟨Or.inl (by decide),
   (invalid_repeat_is_no_match "2023-02-01".data _ (by decide)
     (Or.inl (by decide))).2⟩

/-- C6: stage tags take priority over repeat tags.  For every eligible
completed line on which both a ladder stage tag resolves and a repeat tag is
found, the engine uses the stage nextTag and plusDays; the repeat information
plays no role in the result. -/
theorem stage_tag_priority_over_repeat (now line t rt : List Char)
    (s : Stage) (rd : Nat)
    (hd : taskDoneTest line = true)
    (hns : containsSub line MainTS.NEXT_SCHEDULED_TAG = false)
    (ht : VerifyRepeat.getReviseTagFromLine line = some t)
    (hs : VerifyRepeat.stageLookup (toLowerL t) = some s)
    (hr : VerifyRepeat.getRepeatTagFromLine line = some (rt, rd)) :
    VerifyRepeat.processLine now line =
      some (VerifyRepeat.buildNextOpenTaskLine line s.nextTag
        (addDaysISO (VerifyRepeat.getCompletionBaseDateISO now line) s.plusDays)) := by
  unfold VerifyRepeat.processLine
  rw [hd, hns, ht, hr]
  simp only [hs, Bool.not_true, Bool.false_eq_true, if_false]

theorem stage_tag_priority_over_repeat_witness :
    VerifyRepeat.getRepeatTagFromLine
      "- [x] T #revise #repeat_3 ✅ 2023-01-01".data =
      some ("#repeat_3".data, 3) ∧
    VerifyRepeat.processLine "2023-02-01".data
      "- [x] T #revise #repeat_3 ✅ 2023-01-01".data =
      some "- [ ] T ⏳ 2023-01-08 #revise_7".data :=
  ⟨by decide,
   (stage_tag_priority_over_repeat "2023-02-01".data _ "#revise".data
     "#repeat_3".data ⟨"#revise_7".data, 7⟩ 3 (by decide) (by decide) (by decide)
     (by decide) (by decide)).trans (by decide)⟩

/-- C5: stripping is incomplete on the code as written.  On the eligible
completed line below, the `main.ts` engine generates a successor that still
contains a due-marker glyph occurrence (the bare glyph is not followed by an
ISO date, so the due-token regex does not remove it) and still contains the
scheduling tag `#repeat_3` (the `main.ts` `buildNextOpenTaskLine` has no
repeat-tag removal; `verify_repeat.js` documents this as a bug to fix).  This
contradicts the claimed zero-occurrence guarantee. -/
theorem stale_tokens_survive_cloning :
    MainTS.evalLine "2023-02-01".data
        "- [x] Task 📅 #repeat_3 #revise ✅ 2023-01-01".data =
      some ("- [x] Task 📅 #repeat_3 #revise ✅ 2023-01-01 #nextscheduled".data,
            "- [ ] Task 📅 #repeat_3 ⏳ 2023-01-08 #revise_7".data) ∧
    containsSub "- [ ] Task 📅 #repeat_3 ⏳ 2023-01-08 #revise_7".data
      "#repeat_3".data = true ∧
    containsSub "- [ ] Task 📅 #repeat_3 ⏳ 2023-01-08 #revise_7".data
      ['📅'] = true :=
  ⟨by decide, by decide, by decide⟩

/-! Helper lemmas about takeWhile, dropWhile and trailing whitespace. -/

theorem takeWhile_append_all {p : Char → Bool} {A : List Char}
    (h : ∀ a ∈ A, p a = true) (B : List Char) :
    (A ++ B).takeWhile p = A ++ B.takeWhile p := by
  induction A with
  | nil => simp
  | cons a A ih =>
    have ha := h a (by simp)
    simp only [List.cons_append, List.takeWhile_cons, ha, if_true]
    rw [ih (fun x hx => h x (by simp [hx]))]

theorem dropWhile_append_all {p : Char → Bool} {A : List Char}
    (h : ∀ a ∈ A, p a = true) (B : List Char) :
    (A ++ B).dropWhile p = B.dropWhile p := by
  induction A with
  | nil => simp
  | cons a A ih =>
    have ha := h a (by simp)
    simp only [List.cons_append, List.dropWhile_cons, ha, if_true]
    exact ih (fun x hx => h x (by simp [hx]))

theorem takeWhile_cons_neg {p : Char → Bool} {c : Char} (h : p c = false)
    (l : List Char) : (c :: l).takeWhile p = [] := by
  simp [List.takeWhile_cons, h]

theorem dropWhile_cons_neg {p : Char → Bool} {c : Char} (h : p c = false)
    (l : List Char) : (c :: l).dropWhile p = c :: l := by
  simp [List.dropWhile_cons, h]

theorem dropTrailWS_concat (A : List Char) {c : Char} (hc : isWS c = false) :
    dropTrailWS (A ++ [c]) = A ++ [c] := by
  unfold dropTrailWS
  rw [List.reverse_append]
  simp only [List.reverse_cons, List.reverse_nil, List.nil_append, List.cons_append,
    List.nil_append]
  rw [dropWhile_cons_neg hc]
  simp

theorem isBlockIdChar_not_ws {c : Char} (h : isBlockIdChar c = true) :
    isWS c = false := by
  cases hw : isWS c
  · rfl
  · exfalso
    simp only [isWS, Bool.or_eq_true, beq_iff_eq, Bool.and_eq_true,
      decide_eq_true_eq] at hw
    simp only [isBlockIdChar, Bool.or_eq_true, beq_iff_eq, Bool.and_eq_true,
      decide_eq_true_eq] at h
    omega

theorem mem_of_mem_dropTrailWS {c : Char} {l : List Char}
    (h : c ∈ dropTrailWS l) : c ∈ l := by
  unfold dropTrailWS at h
  have h1 := List.mem_reverse.mp h
  have h2 := (List.dropWhile_sublist (l := l.reverse) (p := isWS)).subset h1
  exact List.mem_reverse.mp h2

theorem blockIdSuffix_decomp (pre id : List Char) (w : Char)
    (hw : isWS w = true) (hid : id ≠ [])
    (hidc : ∀ c ∈ id, isBlockIdChar c = true) :
    blockIdSuffix (pre ++ w :: '^' :: id) = some (pre, w, id) := by
  have hrev : (pre ++ w :: '^' :: id).reverse =
      id.reverse ++ '^' :: w :: pre.reverse := by
    simp [List.reverse_append]
  have hall : ∀ a ∈ id.reverse, isBlockIdChar a = true :=
    fun a ha => hidc a (List.mem_reverse.mp ha)
  have ht : (id.reverse ++ '^' :: w :: pre.reverse).takeWhile isBlockIdChar =
      id.reverse := by
    rw [takeWhile_append_all hall, takeWhile_cons_neg (by decide)]
    simp
  have hd : (id.reverse ++ '^' :: w :: pre.reverse).dropWhile isBlockIdChar =
      '^' :: w :: pre.reverse := by
    rw [dropWhile_append_all hall, dropWhile_cons_neg (by decide)]
  have hne : id.reverse.isEmpty = false := by
    cases hir : id.reverse with
    | nil => exact absurd (by simpa using congrArg List.reverse hir) hid
    | cons a b => rfl
  simp only [blockIdSuffix, hrev, ht, hd, hne, hw, Bool.false_eq_true, if_false,
    if_true, List.reverse_reverse]

theorem blockIdSuffix_none {s : List Char} (h : '^' ∉ s) :
    blockIdSuffix s = none := by
  simp only [blockIdSuffix]
  split
  · rename_i w front heq
    exfalso
    apply h
    have hmem : '^' ∈ (s.reverse).dropWhile isBlockIdChar := by
      rw [heq]
      simp
    exact List.mem_reverse.mp
      ((List.dropWhile_sublist (l := s.reverse) (p := isBlockIdChar)).subset hmem)
  · rfl

theorem dropTrailWS_blockid (pre id : List Char) (w : Char) (hid : id ≠ [])
    (hidc : ∀ c ∈ id, isBlockIdChar c = true) :
    dropTrailWS (pre ++ w :: '^' :: id) = pre ++ w :: '^' :: id := by
  cases hir : id.reverse with
  | nil => exact absurd (by simpa using congrArg List.reverse hir) hid
  | cons cl r =>
    have hidq : id = r.reverse ++ [cl] := by
      have := congrArg List.reverse hir
      simpa using this
    have hcl : isBlockIdChar cl = true := hidc cl (by rw [hidq]; simp)
    have hsplit : pre ++ w :: '^' :: id = (pre ++ w :: '^' :: r.reverse) ++ [cl] := by
      rw [hidq]
      simp
    rw [hsplit, dropTrailWS_concat _ (isBlockIdChar_not_ws hcl)]

/-- C4: sentinel placement around a trailing block reference.  When the
original line ends with a whitespace-separated `^id` suffix made of
block-identifier characters, `appendTagPreservingBlockId` inserts the trimmed
tag immediately before that suffix, so the suffix remains the final token of
the amended line; when the line contains no caret at all, the tag is appended
at the trailing-whitespace-trimmed end of the line. -/
theorem sentinel_inserted_before_blockid :
    (∀ (pre id rawTag : List Char) (w : Char),
      isWS w = true → id ≠ [] → (∀ c ∈ id, isBlockIdChar c = true) →
      hasTokenCI (toLowerL (trimBoth rawTag)) (pre ++ w :: '^' :: id) = false →
      PartZero.appendTagPreservingBlockId (pre ++ w :: '^' :: id) rawTag =
        pre ++ ' ' :: (trimBoth rawTag ++ w :: '^' :: id)) ∧
    (∀ (line rawTag : List Char),
      '^' ∉ line →
      hasTokenCI (toLowerL (trimBoth rawTag)) line = false →
      PartZero.appendTagPreservingBlockId line rawTag =
        dropTrailWS line ++ ' ' :: trimBoth rawTag) := by
  constructor
  · intro pre id rawTag w hw hid hidc htag
    simp only [PartZero.appendTagPreservingBlockId, htag, Bool.false_eq_true,
      if_false, dropTrailWS_blockid pre id w hid hidc,
      blockIdSuffix_decomp pre id w hw hid hidc]
  · intro line rawTag hc htag
    have hnoc : '^' ∉ dropTrailWS line := fun hmem => hc (mem_of_mem_dropTrailWS hmem)
    simp only [PartZero.appendTagPreservingBlockId, htag, Bool.false_eq_true,
      if_false, blockIdSuffix_none hnoc]

theorem sentinel_inserted_before_blockid_witness :
    isWS ' ' = true ∧
    PartZero.appendTagPreservingBlockId "- [x] T #revise ^abc123".data
      "#nextscheduled".data = "- [x] T #revise #nextscheduled ^abc123".data ∧
    PartZero.appendTagPreservingBlockId "- [x] T done".data
      "#nextscheduled".data = "- [x] T done #nextscheduled".data :=
  ⟨by decide,
   ((sentinel_inserted_before_blockid).1 "- [x] T #revise".data "abc123".data
     "#nextscheduled".data ' ' (by decide) (by decide) (by decide)
     (by decide)).trans (by decide),
   ((sentinel_inserted_before_blockid).2 "- [x] T done".data
     "#nextscheduled".data (by decide) (by decide)).trans (by decide)⟩

/-! Helper lemmas about substring containment and newline splitting. -/

theorem startsWithLit_refl (pat : List Char) : startsWithLit pat pat = true := by
  induction pat with
  | nil => rfl
  | cons p ps ih => simp [startsWithLit, ih]

theorem containsSub_cons (c : Char) (rest pat : List Char) :
    containsSub (c :: rest) pat =
      (startsWithLit pat (c :: rest) || containsSub rest pat) := by
  by_cases h : startsWithLit pat (c :: rest) = true
  · simp [containsSub, h]
  · simp only [Bool.not_eq_true] at h
    simp [containsSub, h]

theorem containsSub_suffix (A pat : List Char) :
    containsSub (A ++ pat) pat = true := by
  induction A with
  | nil =>
    simp only [List.nil_append]
    unfold containsSub
    rw [startsWithLit_refl]
    simp
  | cons a A ih =>
    rw [List.cons_append, containsSub_cons, ih]
    simp

theorem splitNl_ne_nil (cs : List Char) : splitNl cs ≠ [] := by
  cases cs with
  | nil => simp [splitNl]
  | cons c rest =>
    simp only [splitNl]
    cases splitNl rest with
    | nil => simp
    | cons l ls =>
      by_cases h : c = '\n' <;> simp [h]

theorem joinNl_cons_cons (c : Char) (l : List Char) (ls : List (List Char)) :
    joinNl ((c :: l) :: ls) = c :: joinNl (l :: ls) := by
  cases ls <;> rfl

theorem joinNl_splitNl (cs : List Char) : joinNl (splitNl cs) = cs := by
  induction cs with
  | nil => rfl
  | cons c rest ih =>
    simp only [splitNl]
    cases hs : splitNl rest with
    | nil => exact absurd hs (splitNl_ne_nil rest)
    | cons l ls =>
      rw [hs] at ih
      by_cases h : c = '\n'
      · subst h
        simp only [if_pos rfl]
        show '\n' :: joinNl (l :: ls) = '\n' :: rest
        rw [ih]
      · simp only [beq_iff_eq, h, if_false, if_neg h]
        rw [joinNl_cons_cons, ih]

theorem splitNl_of_noNl {l : List Char} (h : '\n' ∉ l) : splitNl l = [l] := by
  induction l with
  | nil => rfl
  | cons c rest ih =>
    have hc : c ≠ '\n' := fun hc => h (by simp [hc])
    have hrest : '\n' ∉ rest := fun hm => h (by simp [hm])
    simp [splitNl, ih hrest, hc]

theorem splitNl_append_nl {l : List Char} (h : '\n' ∉ l) (R : List Char) :
    splitNl (l ++ '\n' :: R) = l :: splitNl R := by
  induction l with
  | nil =>
    simp only [List.nil_append, splitNl]
    cases hs : splitNl R with
    | nil => exact absurd hs (splitNl_ne_nil R)
    | cons x xs => simp
  | cons c rest ih =>
    have hc : c ≠ '\n' := fun hc => h (by simp [hc])
    have hrest : '\n' ∉ rest := fun hm => h (by simp [hm])
    show splitNl (c :: (rest ++ '\n' :: R)) = (c :: rest) :: splitNl R
    rw [splitNl, ih hrest]
    cases hs : splitNl R with
    | nil => exact absurd hs (splitNl_ne_nil R)
    | cons x xs => simp [hc]

theorem splitNl_joinNl {ls : List (List Char)} (hne : ls ≠ [])
    (h : ∀ l ∈ ls, '\n' ∉ l) : splitNl (joinNl ls) = ls := by
  induction ls with
  | nil => exact absurd rfl hne
  | cons l ls ih =>
    cases ls with
    | nil => exact splitNl_of_noNl (h l (by simp))
    | cons l2 ls2 =>
      show splitNl (l ++ '\n' :: joinNl (l2 :: ls2)) = l :: l2 :: ls2
      rw [splitNl_append_nl (h l (by simp))]
      rw [ih (by simp) (fun x hx => h x (by simp [List.mem_cons] at hx ⊢; tauto))]

theorem splitNl_mem_noNl (cs : List Char) : ∀ l ∈ splitNl cs, '\n' ∉ l := by
  induction cs with
  | nil => simp [splitNl]
  | cons c rest ih =>
    intro l hl
    simp only [splitNl] at hl
    cases hs : splitNl rest with
    | nil => exact absurd hs (splitNl_ne_nil rest)
    | cons x xs =>
      rw [hs] at hl
      by_cases hc : c = '\n'
      · subst hc
        simp at hl
        rcases hl with hl | hl | hl
        · simp [hl]
        · exact ih l (by rw [hs]; simp [hl])
        · exact ih l (by rw [hs]; simp [hl])
      · simp [hc] at hl
        rcases hl with hl | hl
        · subst hl
          intro hmem
          rcases List.mem_cons.mp hmem with hm | hm
          · exact hc hm.symm
          · exact ih x (by rw [hs]; simp) hm
        · exact ih l (by rw [hs]; simp [hl])

theorem processLines_no_mut {now : List Char} :
    ∀ ls : List (List Char), (MainTS.processLines now ls).2 = false →
      (MainTS.processLines now ls).1 = ls := by
  intro ls
  induction ls with
  | nil => intro _; rfl
  | cons l ls ih =>
    intro h
    simp only [MainTS.processLines] at h ⊢
    cases he : MainTS.evalLine now l with
    | none =>
      rw [he] at h
      have h2 : (MainTS.processLines now ls).2 = false := h
      show l :: (MainTS.processLines now ls).1 = l :: ls
      rw [ih h2]
    | some p =>
      rw [he] at h
      cases p with
      | mk a b =>
        have h2 : true = false := h
        cases h2

/-- C9: write discipline of `processFile`.  The write happens exactly when at
least one line produced a result and the rejoined output differs from the
original text; and when no line produced a result, the output text is
byte-for-byte the original (rejoining the untouched split is the identity)
and no write is issued. -/
theorem write_iff_mutated_and_changed (now content : List Char) :
    ((MainTS.processDocument now content).2 = true ↔
      ((MainTS.processLines now (splitNl content)).2 = true ∧
        joinNl (MainTS.processLines now (splitNl content)).1 ≠ content)) ∧
    ((MainTS.processLines now (splitNl content)).2 = false →
      MainTS.processDocument now content = (content, false) ∧
      joinNl (MainTS.processLines now (splitNl content)).1 = content) := by
  constructor
  · simp only [MainTS.processDocument]
    split
    · rename_i h
      simp only [ne_eq]
      exact ⟨fun _ => ⟨h.1, h.2⟩, fun _ => by trivial⟩
    · rename_i h
      simp only [ne_eq]
      constructor
      · intro hfalse
        exact absurd hfalse (by simp)
      · intro hcl
        exact absurd ⟨hcl.1, hcl.2⟩ h
  · intro h
    have h1 := processLines_no_mut _ h
    have h2 : joinNl (MainTS.processLines now (splitNl content)).1 = content := by
      rw [h1, joinNl_splitNl]
    refine ⟨?_, h2⟩
    simp only [MainTS.processDocument]
    split
    · rename_i hcond
      rw [h] at hcond
      exact absurd hcond.1 (by simp)
    · rfl

theorem write_iff_mutated_and_changed_witness :
    (MainTS.processLines "2023-02-01".data
      (splitNl "# notes\n- [ ] open task #revise\nplain text".data)).2 = false ∧
    MainTS.processDocument "2023-02-01".data
      "# notes\n- [ ] open task #revise\nplain text".data =
      ("# notes\n- [ ] open task #revise\nplain text".data, false) :=
  ⟨by decide,
   ((write_iff_mutated_and_changed "2023-02-01".data
     "# notes\n- [ ] open task #revise\nplain text".data).2 (by decide)).1⟩

theorem evalLine_none_of_contains {now line : List Char}
    (h : containsSub line MainTS.NEXT_SCHEDULED_TAG = true) :
    MainTS.evalLine now line = none := by
  unfold MainTS.evalLine
  cases hdt : taskDoneTest line
  · simp
  · rw [h]
    simp

theorem dropWhile_append_of_ne_nil {p : Char → Bool} {A : List Char}
    (h : A.dropWhile p ≠ []) (B : List Char) :
    (A ++ B).dropWhile p = A.dropWhile p ++ B := by
  induction A with
  | nil => exact absurd rfl h
  | cons a A ih =>
    by_cases hp : p a = true
    · rw [List.cons_append, List.dropWhile_cons, if_pos hp]
      rw [List.dropWhile_cons, if_pos hp] at h ⊢
      exact ih h
    · have hp2 : p a = false := by simpa using hp
      rw [List.cons_append, dropWhile_cons_neg hp2, dropWhile_cons_neg hp2]
      simp

theorem taskOpenTest_inv {s : List Char} (h : taskOpenTest s = true) :
    ∃ r2 c r4, s.dropWhile isWS = '-' :: r2 ∧
      r2.dropWhile isWS = '[' :: c :: ']' :: r4 ∧ isWS c = true := by
  unfold taskOpenTest at h
  split at h
  · rename_i r2 heq
    split at h
    · rename_i c r4 heq2
      rw [Bool.and_eq_true] at h
      exact ⟨r2, c, r4, heq, heq2, h.1⟩
    · cases h
  · cases h

theorem taskDoneTest_false_of {v : List Char} {c : Char} {r : List Char}
    (hv : v.dropWhile isWS = '[' :: c :: ']' :: r) (hc : isWS c = true) :
    taskDoneTest ('-' :: v) = false := by
  have hx : (c.toLower == 'x') = false := by
    rw [toLower_ws hc]
    by_cases hcx : c = 'x'
    · rw [hcx] at hc
      exact absurd hc (by decide)
    · simp [hcx]
  unfold taskDoneTest taskDoneSplit
  rw [dropWhile_cons_neg (by decide)]
  simp only [hv, hx]
  simp

theorem trim_append_open_not_done (s6 T : List Char) (ho : taskOpenTest s6 = true)
    (T0 : List Char) (cl : Char) (hT : T = T0 ++ [cl]) (hcl : isWS cl = false) :
    taskDoneTest (trimBoth (s6 ++ T)) = false := by
  obtain ⟨r2, c, r4, h1, h2, hc⟩ := taskOpenTest_inv ho
  have hallw : ∀ a ∈ s6.takeWhile isWS, isWS a = true :=
    fun a ha => List.mem_takeWhile_imp ha
  have hsplit : s6 = s6.takeWhile isWS ++ '-' :: r2 := by
    conv_lhs => rw [← List.takeWhile_append_dropWhile (p := isWS) (l := s6)]
    rw [h1]
  have hdw : (s6 ++ T).dropWhile isWS = '-' :: (r2 ++ T) := by
    conv_lhs => rw [hsplit]
    rw [List.append_assoc, dropWhile_append_all hallw, List.cons_append,
      dropWhile_cons_neg (by decide)]
  unfold trimBoth
  rw [hdw]
  have hconc : '-' :: (r2 ++ T) = ('-' :: (r2 ++ T0)) ++ [cl] := by
    rw [hT]
    simp
  rw [hconc, dropTrailWS_concat _ hcl, ← hconc]
  refine taskDoneTest_false_of (c := c) (r := r4 ++ T) ?_ hc
  rw [dropWhile_append_of_ne_nil (by rw [h2]; simp), h2]
  simp

theorem openMarker_data :
    "- [ ] ".data = '-' :: ' ' :: '[' :: ' ' :: ']' :: ' ' :: [] := by decide

theorem trim_prepend_not_done (s6 T : List Char) (T0 : List Char) (cl : Char)
    (hT : T = T0 ++ [cl]) (hcl : isWS cl = false) :
    taskDoneTest (trimBoth
      ((s6.takeWhile isWS ++ "- [ ] ".data ++ s6.dropWhile isWS) ++ T)) = false := by
  have hallw : ∀ a ∈ s6.takeWhile isWS, isWS a = true :=
    fun a ha => List.mem_takeWhile_imp ha
  have hdw : ((s6.takeWhile isWS ++ "- [ ] ".data ++ s6.dropWhile isWS) ++ T).dropWhile
      isWS = '-' :: (' ' :: '[' :: ' ' :: ']' :: ' ' :: (s6.dropWhile isWS ++ T)) := by
    rw [List.append_assoc, List.append_assoc, dropWhile_append_all hallw,
      openMarker_data]
    rw [show ('-' :: ' ' :: '[' :: ' ' :: ']' :: ' ' :: []) ++
        (s6.dropWhile isWS ++ T) =
        '-' :: (' ' :: '[' :: ' ' :: ']' :: ' ' :: (s6.dropWhile isWS ++ T)) by simp]
    rw [dropWhile_cons_neg (by decide)]
  unfold trimBoth
  rw [hdw]
  have hconc : '-' :: (' ' :: '[' :: ' ' :: ']' :: ' ' :: (s6.dropWhile isWS ++ T)) =
      ('-' :: (' ' :: '[' :: ' ' :: ']' :: ' ' :: (s6.dropWhile isWS ++ T0))) ++ [cl] := by
    rw [hT]
    simp
  rw [hconc, dropTrailWS_concat _ hcl, ← hconc]
  refine taskDoneTest_false_of (c := ' ')
    (r := ' ' :: (s6.dropWhile isWS ++ T)) ?_ (by decide)
  rw [List.dropWhile_cons, if_pos (by decide), dropWhile_cons_neg (by decide)]

theorem buildNext_not_done (line tag due t0 : List Char) (cl : Char)
    (htag : tag = t0 ++ [cl]) (hcl : isWS cl = false) :
    taskDoneTest (MainTS.buildNextOpenTaskLine line tag due) = false := by
  simp only [MainTS.buildNextOpenTaskLine]
  have hT : ' ' :: '⏳' :: ' ' :: (due ++ ' ' :: tag) =
      (' ' :: '⏳' :: ' ' :: (due ++ ' ' :: t0)) ++ [cl] := by
    rw [htag]
    simp
  split
  · rename_i ho
    exact trim_append_open_not_done _ _ ho _ cl hT hcl
  · exact trim_prepend_not_done _ _ _ cl hT hcl

theorem stage_props {t : List Char} {s : Stage}
    (h : MainTS.stageLookup t = some s) :
    (∃ t0 cl, s.nextTag = t0 ++ [cl] ∧ isWS cl = false) ∧ '\n' ∉ s.nextTag := by
  unfold MainTS.stageLookup at h
  cases hf : List.find? (fun p => p.1 == t) MainTS.STAGES with
  | none =>
    rw [hf] at h
    cases h
  | some p =>
    rw [hf] at h
    simp at h
    have hp := List.mem_of_find?_eq_some hf
    simp only [MainTS.STAGES, List.mem_cons, List.not_mem_nil, or_false] at hp
    rcases hp with h1 | h1 | h1 | h1 | h1 <;> subst h1 <;> rw [← h]
    · exact ⟨⟨"#revise_".data, '7', by decide, by decide⟩, by decide⟩
    · exact ⟨⟨"#revise_3".data, '0', by decide, by decide⟩, by decide⟩
    · exact ⟨⟨"#revise_9".data, '0', by decide, by decide⟩, by decide⟩
    · exact ⟨⟨"#revise_36".data, '5', by decide, by decide⟩, by decide⟩
    · exact ⟨⟨"#revise_36".data, '5', by decide, by decide⟩, by decide⟩

theorem evalLine_some_inv {now l m n : List Char}
    (h : MainTS.evalLine now l = some (m, n)) :
    containsSub l MainTS.NEXT_SCHEDULED_TAG = false ∧
    m = dropTrailWS (l ++ ' ' :: MainTS.NEXT_SCHEDULED_TAG) ∧
    ∃ tag s, MainTS.getReviseTagFromLine l = some tag ∧
      MainTS.stageLookup (toLowerL tag) = some s ∧
      n = MainTS.buildNextOpenTaskLine l s.nextTag
        (addDaysISO (MainTS.getCompletionBaseDateISO now l) s.plusDays) := by
  unfold MainTS.evalLine at h
  cases hdt : taskDoneTest l with
  | false =>
    rw [hdt] at h
    simp at h
  | true =>
    rw [hdt] at h
    cases hcs : containsSub l MainTS.NEXT_SCHEDULED_TAG with
    | true =>
      rw [hcs] at h
      simp at h
    | false =>
      rw [hcs] at h
      cases htag : MainTS.getReviseTagFromLine l with
      | none =>
        rw [htag] at h
        simp at h
      | some tag =>
        rw [htag] at h
        cases hst : MainTS.stageLookup (toLowerL tag) with
        | none =>
          simp only [hst] at h
          simp at h
        | some s =>
          simp only [hst, Bool.not_true, Bool.false_eq_true, if_false,
            Option.some.injEq, Prod.mk.injEq] at h
          exact ⟨rfl, h.1.symm, tag, s, rfl, hst, h.2.symm⟩

theorem marked_contains (l : List Char) :
    containsSub (dropTrailWS (l ++ ' ' :: MainTS.NEXT_SCHEDULED_TAG))
      MainTS.NEXT_SCHEDULED_TAG = true := by
  have h0 : MainTS.NEXT_SCHEDULED_TAG = "#nextschedule".data ++ ['d'] := by decide
  have hsplit : l ++ ' ' :: MainTS.NEXT_SCHEDULED_TAG =
      (l ++ ' ' :: "#nextschedule".data) ++ ['d'] := by
    rw [h0]
    simp
  rw [hsplit, dropTrailWS_concat _ (by decide), ← hsplit]
  rw [show l ++ ' ' :: MainTS.NEXT_SCHEDULED_TAG =
    (l ++ [' ']) ++ MainTS.NEXT_SCHEDULED_TAG by simp]
  exact containsSub_suffix _ _

theorem processLines_all_none (now : List Char) :
    ∀ ls : List (List Char), ∀ l ∈ (MainTS.processLines now ls).1,
      MainTS.evalLine now l = none := by
  intro ls
  induction ls with
  | nil =>
    intro l hl
    simp [MainTS.processLines] at hl
  | cons x xs ih =>
    intro l hl
    simp only [MainTS.processLines] at hl
    cases he : MainTS.evalLine now x with
    | none =>
      rw [he] at hl
      rcases List.mem_cons.mp hl with h1 | h1
      · subst h1
        exact he
      · exact ih l h1
    | some p =>
      rw [he] at hl
      cases p with
      | mk mk1 mk2 =>
        obtain ⟨hns, hm, tag, s, htag, hstage, hn⟩ := evalLine_some_inv he
        rcases List.mem_cons.mp hl with h1 | h1
        · subst h1
          rw [hm]
          exact evalLine_none_of_contains (marked_contains _)
        · rcases List.mem_cons.mp h1 with h2 | h2
          · subst h2
            rw [hn]
            obtain ⟨⟨t0, cl, hdec, hclws⟩, _⟩ := stage_props hstage
            unfold MainTS.evalLine
            rw [buildNext_not_done _ _ _ t0 cl hdec hclws]
            simp
          · exact ih l h2

theorem processLines_of_none (now : List Char) :
    ∀ ls : List (List Char), (∀ l ∈ ls, MainTS.evalLine now l = none) →
      MainTS.processLines now ls = (ls, false) := by
  intro ls
  induction ls with
  | nil => intro _; rfl
  | cons x xs ih =>
    intro h
    simp only [MainTS.processLines]
    rw [h x (by simp), ih (fun l hl => h l (by simp [hl]))]

theorem processLines_ne_nil (now : List Char) {ls : List (List Char)}
    (h : ls ≠ []) : (MainTS.processLines now ls).1 ≠ [] := by
  cases ls with
  | nil => exact absurd rfl h
  | cons x xs =>
    simp only [MainTS.processLines]
    cases MainTS.evalLine now x with
    | none => simp
    | some p =>
      cases p
      simp

/-! Membership lemmas: every strip only deletes characters, and the rebuilt
lines only add characters from fixed marker sets, the due date and the tag. -/

theorem matchReviseCore_drop {cs tok rest : List Char}
    (h : matchReviseCore cs = some (tok, rest)) : ∃ k, rest = cs.drop k := by
  unfold matchReviseCore at h
  split_ifs at h <;>
    (injection h with h; injection h with h1 h2; exact ⟨_, h2.symm⟩)

theorem mem_reviseStripAfterF {c : Char} :
    ∀ (fuel : Nat) (cs : List Char), c ∈ reviseStripAfterF fuel cs → c ∈ cs := by
  intro fuel
  induction fuel with
  | zero => intro cs h; exact h
  | succ f ih =>
    intro cs h
    cases cs with
    | nil => exact absurd h (List.not_mem_nil c)
    | cons a rest =>
      simp only [reviseStripAfterF] at h
      by_cases hws : isWS a = true
      · rw [hws] at h
        simp only [if_true] at h
        cases hm : matchReviseCore rest with
        | some p =>
          rw [hm] at h
          cases p with
          | mk tok rest2 =>
            obtain ⟨k, hk⟩ := matchReviseCore_drop hm
            have h2 := ih rest2 h
            rw [hk] at h2
            exact List.mem_cons_of_mem a (List.mem_of_mem_drop h2)
        | none =>
          rw [hm] at h
          rcases List.mem_cons.mp h with h1 | h1
          · simp [h1]
          · exact List.mem_cons_of_mem a (ih rest h1)
      · have hws2 : isWS a = false := by simpa using hws
        rw [hws2] at h
        simp only [Bool.false_eq_true, if_false] at h
        rcases List.mem_cons.mp h with h1 | h1
        · simp [h1]
        · exact List.mem_cons_of_mem a (ih rest h1)

theorem mem_reviseStrip {c : Char} {cs : List Char} (h : c ∈ reviseStrip cs) :
    c ∈ cs := by
  unfold reviseStrip at h
  cases hm : matchReviseCore cs with
  | some p =>
    rw [hm] at h
    cases p with
    | mk tok rest =>
      obtain ⟨k, hk⟩ := matchReviseCore_drop hm
      have h2 := mem_reviseStripAfterF _ _ h
      rw [hk] at h2
      exact List.mem_of_mem_drop h2
  | none =>
    rw [hm] at h
    exact mem_reviseStripAfterF _ _ h

theorem matchISOAt_drop {cs rest : List Char} (h : matchISOAt cs = some rest) :
    rest = cs.drop 10 := by
  unfold matchISOAt at h
  split at h
  · split_ifs at h
    injection h with h
    rw [← h]
    simp
  · exact absurd h (by simp)

theorem mem_matchGlyphDateAt {gs cs r : List Char}
    (h : matchGlyphDateAt gs cs = some r) : ∀ c ∈ r, c ∈ cs := by
  unfold matchGlyphDateAt at h
  split at h
  · rename_i g r2 heq
    split_ifs at h
    intro c hc
    have hr := matchISOAt_drop h
    rw [hr] at hc
    have h2 : c ∈ r2.dropWhile isWS := List.mem_of_mem_drop hc
    have h3 : c ∈ r2 := (List.dropWhile_sublist (l := r2) (p := isWS)).subset h2
    have h4 : c ∈ g :: r2 := List.mem_cons_of_mem g h3
    rw [← heq] at h4
    exact (List.dropWhile_sublist (l := cs) (p := isWS)).subset h4
  · cases h

theorem mem_stripGlyphDatesF {c : Char} {gs : List Char} :
    ∀ (fuel : Nat) (cs : List Char), c ∈ stripGlyphDatesF gs fuel cs → c ∈ cs := by
  intro fuel
  induction fuel with
  | zero => intro cs h; exact h
  | succ f ih =>
    intro cs h
    cases cs with
    | nil => exact absurd h (List.not_mem_nil c)
    | cons a rest =>
      have h2 : c ∈ (match matchGlyphDateAt gs (a :: rest) with
          | some rest2 => stripGlyphDatesF gs f rest2
          | none => a :: stripGlyphDatesF gs f rest) := h
      cases hm : matchGlyphDateAt gs (a :: rest) with
      | some r2 =>
        rw [hm] at h2
        exact mem_matchGlyphDateAt hm c (ih r2 h2)
      | none =>
        rw [hm] at h2
        rcases List.mem_cons.mp h2 with h1 | h1
        · simp [h1]
        · exact List.mem_cons_of_mem a (ih rest h1)

theorem mem_stripGlyphDates {c : Char} {gs cs : List Char}
    (h : c ∈ stripGlyphDates gs cs) : c ∈ cs :=
  mem_stripGlyphDatesF _ _ h

theorem taskDoneSplit_recon {l : List Char} {h : DoneHead}
    (hs : taskDoneSplit l = some h) :
    l = h.w1 ++ '-' :: (h.w2 ++ '[' :: h.xc :: ']' :: (h.w3 ++ h.rest)) := by
  unfold taskDoneSplit at hs
  split at hs
  · rename_i r2 heq
    split at hs
    · rename_i c r4 heq2
      split_ifs at hs
      injection hs with hs
      rw [← hs]
      show l = l.takeWhile isWS ++ '-' ::
        (r2.takeWhile isWS ++ '[' :: c :: ']' ::
          (r4.takeWhile isWS ++ r4.dropWhile isWS))
      rw [List.takeWhile_append_dropWhile]
      conv_lhs => rw [← List.takeWhile_append_dropWhile (p := isWS) (l := l)]
      rw [heq]
      congr 2
      conv_lhs => rw [← List.takeWhile_append_dropWhile (p := isWS) (l := r2)]
      rw [heq2]
    · cases hs
  · cases hs

theorem mem_doneToOpen {c : Char} {l : List Char} (h : c ∈ doneToOpen l) :
    c ∈ l ∨ c = ' ' := by
  unfold doneToOpen at h
  split at h
  · rename_i dh hs
    split_ifs at h
    · have hrec := taskDoneSplit_recon hs
      rw [hrec]
      simp only [List.mem_append, List.mem_cons] at h ⊢
      tauto
    · exact Or.inl h
  · exact Or.inl h

theorem mem_trimBoth {c : Char} {l : List Char} (h : c ∈ trimBoth l) : c ∈ l := by
  unfold trimBoth at h
  have h1 := mem_of_mem_dropTrailWS h
  exact (List.dropWhile_sublist (l := l) (p := isWS)).subset h1

theorem mem_marker6 {c : Char} (h : c ∈ ['-', ' ', '[', ' ', ']', ' ']) :
    c ∈ ('-' :: ' ' :: '[' :: ']' :: '⏳' :: []) := by
  simp only [List.mem_cons, List.not_mem_nil, or_false] at h ⊢
  tauto

theorem mem_buildNext {c : Char} {line tag due : List Char}
    (h : c ∈ MainTS.buildNextOpenTaskLine line tag due) :
    c ∈ line ∨ c ∈ due ∨ c ∈ tag ∨ c ∈ ('-' :: ' ' :: '[' :: ']' :: '⏳' :: []) := by
  simp only [MainTS.buildNextOpenTaskLine] at h
  have hs6 : ∀ d : Char, d ∈ dropTrailWS (stripGlyphDates ['✅'] (stripGlyphDates ['➕']
      (stripGlyphDates ['📅', '⏳'] (reviseStrip (doneToOpen line))))) →
      d ∈ line ∨ d = ' ' := by
    intro d hd
    have h1 := mem_of_mem_dropTrailWS hd
    have h2 := mem_stripGlyphDates h1
    have h3 := mem_stripGlyphDates h2
    have h4 := mem_stripGlyphDates h3
    have h5 := mem_reviseStrip h4
    exact mem_doneToOpen h5
  have h1 := mem_trimBoth h
  rw [List.mem_append] at h1
  rcases h1 with h1 | h1
  · have h2 : c ∈ line ∨ c = ' ' ∨ c ∈ ('-' :: ' ' :: '[' :: ']' :: '⏳' :: []) := by
      split at h1
      · rcases hs6 c h1 with h3 | h3
        · exact Or.inl h3
        · exact Or.inr (Or.inl h3)
      · rw [List.append_assoc, List.mem_append] at h1
        rcases h1 with h1 | h1
        · rcases hs6 c ((List.takeWhile_sublist (p := isWS)).subset h1) with h3 | h3
          · exact Or.inl h3
          · exact Or.inr (Or.inl h3)
        · rw [List.mem_append] at h1
          rcases h1 with h1 | h1
          · exact Or.inr (Or.inr (mem_marker6 h1))
          · rcases hs6 c ((List.dropWhile_sublist (p := isWS)).subset h1) with h3 | h3
            · exact Or.inl h3
            · exact Or.inr (Or.inl h3)
    rcases h2 with h2 | h2 | h2
    · exact Or.inl h2
    · right; right; right
      rw [h2]
      decide
    · exact Or.inr (Or.inr (Or.inr h2))
  · rcases List.mem_cons.mp h1 with h2 | h2
    · right; right; right
      rw [h2]
      decide
    · rcases List.mem_cons.mp h2 with h3 | h3
      · right; right; right
        rw [h3]
        decide
      · rcases List.mem_cons.mp h3 with h4 | h4
        · right; right; right
          rw [h4]
          decide
        · rw [List.mem_append] at h4
          rcases h4 with h4 | h4
          · exact Or.inr (Or.inl h4)
          · rcases List.mem_cons.mp h4 with h5 | h5
            · right; right; right
              rw [h5]
              decide
            · exact Or.inr (Or.inr (Or.inl h5))

theorem natToDecAux_digits :
    ∀ (fuel n : Nat) (c : Char), c ∈ natToDecAux fuel n →
      48 ≤ c.toNat ∧ c.toNat ≤ 57 := by
  intro fuel
  induction fuel with
  | zero => intro n c h; exact absurd h (List.not_mem_nil c)
  | succ f ih =>
    intro n c h
    simp only [natToDecAux] at h
    split_ifs at h with hn
    · rcases List.mem_cons.mp h with h1 | h1
      · rw [h1]
        unfold digChar
        rw [toNat_ofNat_small (by omega)]
        omega
      · exact absurd h1 (List.not_mem_nil c)
    · rw [List.mem_append] at h
      rcases h with h1 | h1
      · exact ih _ c h1
      · rcases List.mem_cons.mp h1 with h2 | h2
        · rw [h2]
          unfold digChar
          rw [toNat_ofNat_small (by omega)]
          have h10 : n % 10 < 10 := Nat.mod_lt n (by omega)
          omega
        · exact absurd h2 (List.not_mem_nil c)

theorem natToDec_digits {n : Nat} {c : Char} (h : c ∈ natToDec n) :
    48 ≤ c.toNat ∧ c.toNat ≤ 57 :=
  natToDecAux_digits _ _ _ h

theorem noNl_formatISO (ymd : Nat × Nat × Nat) : '\n' ∉ formatISO ymd := by
  obtain ⟨y, m, d⟩ := ymd
  intro h
  have hdig : ∀ x : Nat, '\n' ∉ natToDec x := by
    intro x hx
    have := natToDec_digits hx
    simp at this
  have hpad2 : ∀ x : Nat, '\n' ∉ pad2 x := by
    intro x hx
    unfold pad2 at hx
    split_ifs at hx
    · rcases List.mem_cons.mp hx with h1 | h1
      · exact absurd h1 (by decide)
      · exact hdig x h1
    · exact hdig x hx
  have hpad4 : '\n' ∉ pad4 y := by
    intro hx
    unfold pad4 at hx
    split_ifs at hx
    · rcases List.mem_cons.mp hx with h1 | hx2
      · exact absurd h1 (by decide)
      · rcases List.mem_cons.mp hx2 with h1 | hx3
        · exact absurd h1 (by decide)
        · rcases List.mem_cons.mp hx3 with h1 | hx4
          · exact absurd h1 (by decide)
          · exact hdig y hx4
    · rcases List.mem_cons.mp hx with h1 | hx2
      · exact absurd h1 (by decide)
      · rcases List.mem_cons.mp hx2 with h1 | hx3
        · exact absurd h1 (by decide)
        · exact hdig y hx3
    · rcases List.mem_cons.mp hx with h1 | hx2
      · exact absurd h1 (by decide)
      · exact hdig y hx2
    · exact hdig y hx
  simp only [formatISO, List.mem_append, List.mem_cons] at h
  rcases h with (h | h | h) | (h | h)
  · exact hpad4 h
  · exact absurd h (by decide)
  · exact hpad2 m h
  · exact absurd h (by decide)
  · exact hpad2 d h

theorem noNl_addDaysISO (base : List Char) (n : Nat) :
    '\n' ∉ addDaysISO base n := by
  unfold addDaysISO
  split
  · split_ifs
    · exact noNl_formatISO _
    · decide
  · decide

theorem noNl_marked {l : List Char} (h : '\n' ∉ l) :
    '\n' ∉ dropTrailWS (l ++ ' ' :: MainTS.NEXT_SCHEDULED_TAG) := by
  intro hmem
  have h1 := mem_of_mem_dropTrailWS hmem
  rw [List.mem_append] at h1
  rcases h1 with h1 | h1
  · exact h h1
  · exact absurd h1 (by decide)

theorem noNl_next {line tag due : List Char} (hl : '\n' ∉ line)
    (ht : '\n' ∉ tag) (hd : '\n' ∉ due) :
    '\n' ∉ MainTS.buildNextOpenTaskLine line tag due := by
  intro hmem
  rcases mem_buildNext hmem with h | h | h | h
  · exact hl h
  · exact hd h
  · exact ht h
  · exact absurd h (by decide)

theorem processLines_noNl (now : List Char) :
    ∀ ls : List (List Char), (∀ l ∈ ls, '\n' ∉ l) →
      ∀ l ∈ (MainTS.processLines now ls).1, '\n' ∉ l := by
  intro ls
  induction ls with
  | nil =>
    intro _ l hl
    simp [MainTS.processLines] at hl
  | cons x xs ih =>
    intro hx l hl
    simp only [MainTS.processLines] at hl
    cases he : MainTS.evalLine now x with
    | none =>
      rw [he] at hl
      rcases List.mem_cons.mp hl with h1 | h1
      · subst h1
        exact hx l (by simp)
      · exact ih (fun a ha => hx a (by simp [ha])) l h1
    | some p =>
      rw [he] at hl
      cases p with
      | mk mk1 mk2 =>
        obtain ⟨hns, hm, tag, s, htag, hstage, hn⟩ := evalLine_some_inv he
        have hxin : '\n' ∉ x := hx x (by simp)
        rcases List.mem_cons.mp hl with h1 | h1
        · subst h1
          rw [hm]
          exact noNl_marked hxin
        · rcases List.mem_cons.mp h1 with h2 | h2
          · subst h2
            rw [hn]
            exact noNl_next hxin (stage_props hstage).2 (noNl_addDaysISO _ _)
          · exact ih (fun a ha => hx a (by simp [ha])) l h2

/-- C3: idempotence of whole-document processing.  Applying `processFile`
to its own output is a no-op: every amended original line carries the
sentinel substring and is rejected by the gate, every generated successor is
an open task rejected by the completed-task test, and untouched lines stay
untouched, so the second pass mutates nothing, leaves the text unchanged
and issues no write. -/
theorem processDocument_idempotent (now content : List Char) :
    MainTS.processDocument now (MainTS.processDocument now content).1 =
      ((MainTS.processDocument now content).1, false) := by
  by_cases h : ((MainTS.processLines now (splitNl content)).2 = true ∧
      joinNl (MainTS.processLines now (splitNl content)).1 ≠ content)
  case neg =>
    have h1 : MainTS.processDocument now content = (content, false) := by
      simp only [MainTS.processDocument]
      rw [if_neg h]
    rw [h1]
    exact h1
  case pos =>
    have h1 : MainTS.processDocument now content =
        (joinNl (MainTS.processLines now (splitNl content)).1, true) := by
      simp only [MainTS.processDocument]
      rw [if_pos h]
    rw [h1]
    have hnoNl : ∀ l ∈ (MainTS.processLines now (splitNl content)).1, '\n' ∉ l :=
      processLines_noNl now _ (splitNl_mem_noNl content)
    have hne : (MainTS.processLines now (splitNl content)).1 ≠ [] :=
      processLines_ne_nil now (splitNl_ne_nil content)
    have hsplit : splitNl (joinNl (MainTS.processLines now (splitNl content)).1) =
        (MainTS.processLines now (splitNl content)).1 := splitNl_joinNl hne hnoNl
    have hall : ∀ l ∈ (MainTS.processLines now (splitNl content)).1,
        MainTS.evalLine now l = none := processLines_all_none now _
    have hpl : MainTS.processLines now (MainTS.processLines now (splitNl content)).1 =
        ((MainTS.processLines now (splitNl content)).1, false) :=
      processLines_of_none now _ hall
    simp only [MainTS.processDocument, hsplit, hpl]
    rw [if_neg (by simp)]

/-! Computation lemmas for lines whose body contains no tag or date tokens. -/

theorem matchReviseCore_cons_none {c : Char} {l : List Char} (hc : c ≠ '#') :
    matchReviseCore (c :: l) = none := by
  have hdata : "#revise".data = '#' :: "revise".data := by decide
  have h1 : startsWithCI "#revise".data (c :: l) = false := by
    rw [hdata]
    have hne : (c.toLower == '#') = false :=
      beq_eq_false_iff_ne.mpr (toLower_ne_hash hc)
    show ((c.toLower == '#') && startsWithCI "revise".data l) = false
    rw [hne]
    simp
  unfold matchReviseCore
  rw [h1]
  simp

theorem matchReviseCore_none_of_no_hash {l : List Char} (h : '#' ∉ l) :
    matchReviseCore l = none := by
  cases l with
  | nil => decide
  | cons c rest =>
    exact matchReviseCore_cons_none (fun hc => h (by simp [hc]))

theorem reviseStripAfterF_id :
    ∀ (fuel : Nat) (cs : List Char), '#' ∉ cs →
      reviseStripAfterF fuel cs = cs := by
  intro fuel
  induction fuel with
  | zero => intro cs _; rfl
  | succ f ih =>
    intro cs h
    cases cs with
    | nil => rfl
    | cons a rest =>
      have hm : matchReviseCore rest = none :=
        matchReviseCore_none_of_no_hash (fun hb => h (List.mem_cons_of_mem a hb))
      simp only [reviseStripAfterF, hm]
      rw [ih rest (fun hb => h (List.mem_cons_of_mem a hb))]
      split <;> rfl

theorem reviseStripAfterF_skip :
    ∀ (A : List Char) (fuel : Nat) (B : List Char), '#' ∉ A →
      matchReviseCore B = none → A.length ≤ fuel →
      reviseStripAfterF fuel (A ++ B) =
        A ++ reviseStripAfterF (fuel - A.length) B := by
  intro A
  induction A with
  | nil =>
    intro fuel B _ _ _
    simp
  | cons a A ih =>
    intro fuel B hA hB hlen
    cases fuel with
    | zero => simp at hlen
    | succ f =>
      have hm : matchReviseCore (A ++ B) = none := by
        cases A with
        | nil => simpa using hB
        | cons c r =>
          exact matchReviseCore_cons_none
            (fun hc => hA (by simp [hc]))
      have hA2 : '#' ∉ A := fun hb => hA (List.mem_cons_of_mem a hb)
      have hlen2 : A.length ≤ f := by
        simp only [List.length_cons] at hlen
        omega
      show reviseStripAfterF (f + 1) (a :: (A ++ B)) = _
      simp only [reviseStripAfterF, hm]
      rw [ih f B hA2 hB hlen2]
      have hsub : (f + 1) - (a :: A).length = f - A.length := by
        simp only [List.length_cons]
        omega
      rw [hsub]
      split <;> simp

theorem reviseScanAfterF_id :
    ∀ (fuel : Nat) (cs : List Char), '#' ∉ cs →
      reviseScanAfterF fuel cs = [] := by
  intro fuel
  induction fuel with
  | zero => intro cs _; rfl
  | succ f ih =>
    intro cs h
    cases cs with
    | nil => rfl
    | cons a rest =>
      have hm : matchReviseCore rest = none :=
        matchReviseCore_none_of_no_hash (fun hb => h (List.mem_cons_of_mem a hb))
      simp only [reviseScanAfterF, hm]
      rw [ih rest (fun hb => h (List.mem_cons_of_mem a hb))]
      split <;> rfl

theorem reviseScanAfterF_skip :
    ∀ (A : List Char) (fuel : Nat) (B : List Char), '#' ∉ A →
      matchReviseCore B = none → A.length ≤ fuel →
      reviseScanAfterF fuel (A ++ B) =
        reviseScanAfterF (fuel - A.length) B := by
  intro A
  induction A with
  | nil =>
    intro fuel B _ _ _
    simp
  | cons a A ih =>
    intro fuel B hA hB hlen
    cases fuel with
    | zero => simp at hlen
    | succ f =>
      have hm : matchReviseCore (A ++ B) = none := by
        cases A with
        | nil => simpa using hB
        | cons c r =>
          exact matchReviseCore_cons_none
            (fun hc => hA (by simp [hc]))
      have hA2 : '#' ∉ A := fun hb => hA (List.mem_cons_of_mem a hb)
      have hlen2 : A.length ≤ f := by
        simp only [List.length_cons] at hlen
        omega
      show reviseScanAfterF (f + 1) (a :: (A ++ B)) = _
      simp only [reviseScanAfterF, hm]
      rw [ih f B hA2 hB hlen2]
      have hsub : (f + 1) - (a :: A).length = f - A.length := by
        simp only [List.length_cons]
        omega
      rw [hsub]
      split <;> rfl

theorem startsWithCI_self_append {p : List Char}
    (hp : ∀ c ∈ p, c.toLower = c) : ∀ B, startsWithCI p (p ++ B) = true := by
  induction p with
  | nil => intro B; rfl
  | cons a ps ih =>
    intro B
    show ((a.toLower == a) && startsWithCI ps (ps ++ B)) = true
    rw [hp a (by simp), ih (fun c hc => hp c (by simp [hc])) B]
    simp

theorem startsWithLit_underscore_cons {C : List Char} {ps : List Char}
    (hu : startsWithLit ['_'] C = false) :
    startsWithLit ('_' :: ps) C = false := by
  cases C with
  | nil => rfl
  | cons c r =>
    have h1 : (c == '_') = false := by
      by_cases hc : (c == '_') = true
      · exfalso
        have h2 : startsWithLit ['_'] (c :: r) = true := by
          show ((c == '_') && startsWithLit [] r) = true
          rw [hc]
          rfl
        rw [h2] at hu
        cases hu
      · simpa using hc
    show ((c == '_') && startsWithLit ps r) = false
    rw [h1]
    simp

theorem matchReviseCore_exact (C : List Char) (hb : bndOk C = true)
    (hu : startsWithLit ['_'] C = false) :
    matchReviseCore ("#revise".data ++ C) = some ("#revise".data, C) := by
  have hci : startsWithCI "#revise".data ("#revise".data ++ C) = true :=
    startsWithCI_self_append (by decide) C
  have hdrop : ("#revise".data ++ C).drop 7 = C := by
    have := List.drop_left "#revise".data C
    simpa using this
  have htake : ("#revise".data ++ C).take 7 = "#revise".data := by
    have := List.take_left "#revise".data C
    simpa using this
  have hu2 : ∀ ps, startsWithLit ('_' :: ps) C = false := fun ps =>
    startsWithLit_underscore_cons hu
  have h7 : startsWithLit "_7".data C = false := hu2 _
  have h30 : startsWithLit "_30".data C = false := hu2 _
  have h90 : startsWithLit "_90".data C = false := hu2 _
  have h365 : startsWithLit "_365".data C = false := hu2 _
  have h1 : startsWithLit "_".data C = false := hu
  unfold matchReviseCore
  rw [hci, hdrop, htake]
  simp only [h7, h30, h90, h365, h1, hb, Bool.false_and, Bool.false_eq_true,
    if_false, if_true]

theorem matchGlyphDateAt_none {gs cs : List Char} (h : ∀ g ∈ gs, g ∉ cs) :
    matchGlyphDateAt gs cs = none := by
  unfold matchGlyphDateAt
  split
  · rename_i g r2 heq
    have hg : g ∈ cs := by
      have h1 : g ∈ cs.dropWhile isWS := by
        rw [heq]
        simp
      exact (List.dropWhile_sublist (l := cs) (p := isWS)).subset h1
    have hgc : gs.contains g = false := by
      cases hgc : gs.contains g
      · rfl
      · exfalso
        exact h g (List.elem_iff.mp hgc) hg
    rw [hgc]
    simp
  · rfl

theorem stripGlyphDatesF_id {gs : List Char} :
    ∀ (fuel : Nat) (cs : List Char), (∀ g ∈ gs, g ∉ cs) →
      stripGlyphDatesF gs fuel cs = cs := by
  intro fuel
  induction fuel with
  | zero => intro cs _; rfl
  | succ f ih =>
    intro cs h
    cases cs with
    | nil => rfl
    | cons a rest =>
      have hm : matchGlyphDateAt gs (a :: rest) = none := matchGlyphDateAt_none h
      show (match matchGlyphDateAt gs (a :: rest) with
          | some rest2 => stripGlyphDatesF gs f rest2
          | none => a :: stripGlyphDatesF gs f rest) = a :: rest
      rw [hm, ih rest (fun g hgs hmem => h g hgs (List.mem_cons_of_mem a hmem))]

theorem stripGlyphDates_id {gs cs : List Char} (h : ∀ g ∈ gs, g ∉ cs) :
    stripGlyphDates gs cs = cs :=
  stripGlyphDatesF_id _ _ h

theorem completionDateOf_none {l : List Char} (h : '✅' ∉ l) :
    completionDateOf l = none := by
  induction l with
  | nil => rfl
  | cons c rest ih =>
    have hc : ¬(c == '✅') = true := by
      simp only [beq_iff_eq]
      intro hcc
      exact h (by simp [hcc])
    simp only [completionDateOf]
    rw [if_neg hc]
    exact ih (fun hm => h (List.mem_cons_of_mem c hm))

theorem startsWithLit_self_append (p : List Char) :
    ∀ B, startsWithLit p (p ++ B) = true := by
  induction p with
  | nil => intro B; rfl
  | cons a ps ih =>
    intro B
    show ((a == a) && startsWithLit ps (ps ++ B)) = true
    rw [ih B]
    simp

theorem containsSub_mid (A pat B : List Char) :
    containsSub (A ++ (pat ++ B)) pat = true := by
  induction A with
  | nil =>
    simp only [List.nil_append]
    unfold containsSub
    rw [startsWithLit_self_append]
    simp
  | cons a A ih =>
    rw [List.cons_append, containsSub_cons, ih]
    simp

theorem containsSub_skip (ps : List Char) {p : Char} {A B : List Char}
    (hA : p ∉ A) :
    containsSub (A ++ B) (p :: ps) = containsSub B (p :: ps) := by
  induction A with
  | nil => simp
  | cons a A ih =>
    have ha : (a == p) = false := by
      simp only [beq_eq_false_iff_ne]
      intro hc
      exact hA (by simp [hc])
    rw [List.cons_append, containsSub_cons]
    have hs : startsWithLit (p :: ps) (a :: (A ++ B)) = false := by
      show ((a == p) && startsWithLit ps (A ++ B)) = false
      rw [ha]
      simp
    rw [hs, ih (fun hm => hA (List.mem_cons_of_mem a hm))]
    simp

theorem containsSub_none {p : Char} {l : List Char} (ps : List Char)
    (h : p ∉ l) :
    containsSub l (p :: ps) = false := by
  have h1 := containsSub_skip (B := []) ps h
  rw [List.append_nil] at h1
  rw [h1]
  rfl

/-! Shape lemmas for a completed task line with a clean body and a trailing
block-reference suffix, used to settle the fate of `^id` in the clone. -/

theorem taskDoneSplit_dash_x (T : List Char) :
    taskDoneSplit ('-' :: ' ' :: '[' :: 'x' :: ']' :: ' ' :: T) =
      some ⟨[], [' '], 'x', ' ' :: T.takeWhile isWS, T.dropWhile isWS⟩ := rfl

theorem taskDoneTest_dash_x (T : List Char) :
    taskDoneTest ('-' :: ' ' :: '[' :: 'x' :: ']' :: ' ' :: T) = true := by
  simp only [taskDoneTest, taskDoneSplit_dash_x, Option.isSome_some]

theorem doneToOpen_dash_x (T : List Char) :
    doneToOpen ('-' :: ' ' :: '[' :: 'x' :: ']' :: ' ' :: T) =
      '-' :: ' ' :: '[' :: ' ' :: ']' :: ' ' :: T := by
  simp only [doneToOpen, taskDoneSplit_dash_x]
  rw [if_pos (by decide)]
  simp only [List.nil_append, List.cons_append, List.takeWhile_append_dropWhile]

theorem taskOpenTest_dash_open (T : List Char) :
    taskOpenTest ('-' :: ' ' :: '[' :: ' ' :: ']' :: ' ' :: T) = true := rfl

theorem dropTrailWS_nonws_tail (A S : List Char) (hS : S ≠ [])
    (h : ∀ c ∈ S, isWS c = false) : dropTrailWS (A ++ S) = A ++ S := by
  unfold dropTrailWS
  rw [List.reverse_append]
  cases hrev : S.reverse with
  | nil => exact absurd (List.reverse_eq_nil_iff.mp hrev) hS
  | cons c r =>
    have hcS : c ∈ S := by
      have h1 : c ∈ S.reverse := by rw [hrev]; exact List.mem_cons_self c r
      exact List.mem_reverse.mp h1
    rw [List.cons_append, dropWhile_cons_neg (h c hcS), ← List.cons_append,
      ← hrev, ← List.reverse_append, List.reverse_reverse]

theorem trimBoth_nonws (c : Char) (M S : List Char) (hc : isWS c = false)
    (hS : S ≠ []) (h : ∀ x ∈ S, isWS x = false) :
    trimBoth (c :: (M ++ S)) = c :: (M ++ S) := by
  unfold trimBoth
  rw [dropWhile_cons_neg hc]
  have h1 : c :: (M ++ S) = (c :: M) ++ S := rfl
  rw [h1, dropTrailWS_nonws_tail (c :: M) S hS h]

theorem blockid_facts {c : Char} (h : isBlockIdChar c = true) :
    c ≠ '#' ∧ c ≠ '📅' ∧ c ≠ '⏳' ∧ c ≠ '➕' ∧ c ≠ '✅' := by
  refine ⟨?_, ?_, ?_, ?_, ?_⟩ <;>
    (intro hc; rw [hc] at h; exact absurd h (by decide))

theorem mem_done_shape {c : Char} {body id : List Char}
    (h : c ∈ '-' :: ' ' :: '[' :: 'x' :: ']' :: ' ' ::
      (body ++ ' ' :: '#' :: 'r' :: 'e' :: 'v' :: 'i' :: 's' :: 'e' ::
        ' ' :: '^' :: id)) :
    c ∈ body ∨ c ∈ id ∨
      c ∈ ['-', ' ', '[', 'x', ']', '#', 'r', 'e', 'v', 'i', 's', 'e', '^'] := by
  simp only [List.mem_cons, List.mem_append, List.not_mem_nil, or_false] at h ⊢
  tauto

theorem mem_open_shape {c : Char} {body id : List Char}
    (h : c ∈ '-' :: ' ' :: '[' :: ' ' :: ']' :: ' ' :: (body ++ ' ' :: '^' :: id)) :
    c ∈ body ∨ c ∈ id ∨ c ∈ ['-', ' ', '[', ']', '^'] := by
  simp only [List.mem_cons, List.mem_append, List.not_mem_nil, or_false] at h ⊢
  tauto

theorem startsWithLit_sentinel_r (X : List Char) :
    startsWithLit ('#' :: 'n' :: "extscheduled".data) ('#' :: 'r' :: X) = false := by
  show (('#' == '#') && (('r' == 'n') && startsWithLit "extscheduled".data X)) = false
  simp

theorem matchReviseCore_spc_none {X : List Char} :
    matchReviseCore (' ' :: X) = none :=
  matchReviseCore_cons_none (by decide)

theorem reviseScan_shape (P C : List Char) (hP : '#' ∉ P) (hPne : P ≠ [])
    (hC : '#' ∉ C) (hb : bndOk C = true)
    (hu : startsWithLit ['_'] C = false) :
    reviseMatches (P ++ ' ' :: ("#revise".data ++ C)) = ["#revise".data] := by
  have hB : matchReviseCore (' ' :: ("#revise".data ++ C)) = none :=
    matchReviseCore_spc_none
  have hex : matchReviseCore ("#revise".data ++ C) = some ("#revise".data, C) :=
    matchReviseCore_exact C hb hu
  have hPhead : matchReviseCore (P ++ ' ' :: ("#revise".data ++ C)) = none := by
    cases P with
    | nil => exact absurd rfl hPne
    | cons p ps =>
      exact matchReviseCore_cons_none (fun hp => hP (by simp [hp]))
  simp only [reviseMatches, hPhead, reviseScanAfter]
  rw [reviseScanAfterF_skip P ((P ++ ' ' :: ("#revise".data ++ C)).length)
    (' ' :: ("#revise".data ++ C)) hP hB
    (by rw [List.length_append]; omega)]
  have hf : (P ++ ' ' :: ("#revise".data ++ C)).length - P.length =
      (' ' :: ("#revise".data ++ C)).length := by
    rw [List.length_append]
    omega
  rw [hf, List.length_cons]
  simp only [reviseScanAfterF]
  rw [if_pos (show isWS ' ' = true from rfl)]
  simp only [hex]
  rw [reviseScanAfterF_id ("#revise".data ++ C).length C hC]

theorem reviseStrip_shape (P C : List Char) (hP : '#' ∉ P) (hPne : P ≠ [])
    (hC : '#' ∉ C) (hb : bndOk C = true)
    (hu : startsWithLit ['_'] C = false) :
    reviseStrip (P ++ ' ' :: ("#revise".data ++ C)) = P ++ C := by
  have hB : matchReviseCore (' ' :: ("#revise".data ++ C)) = none :=
    matchReviseCore_spc_none
  have hex : matchReviseCore ("#revise".data ++ C) = some ("#revise".data, C) :=
    matchReviseCore_exact C hb hu
  have hPhead : matchReviseCore (P ++ ' ' :: ("#revise".data ++ C)) = none := by
    cases P with
    | nil => exact absurd rfl hPne
    | cons p ps =>
      exact matchReviseCore_cons_none (fun hp => hP (by simp [hp]))
  simp only [reviseStrip, hPhead, reviseStripAfter]
  rw [reviseStripAfterF_skip P ((P ++ ' ' :: ("#revise".data ++ C)).length)
    (' ' :: ("#revise".data ++ C)) hP hB
    (by rw [List.length_append]; omega)]
  have hf : (P ++ ' ' :: ("#revise".data ++ C)).length - P.length =
      (' ' :: ("#revise".data ++ C)).length := by
    rw [List.length_append]
    omega
  rw [hf, List.length_cons]
  simp only [reviseStripAfterF]
  rw [if_pos (show isWS ' ' = true from rfl)]
  simp only [hex]
  rw [reviseStripAfterF_id ("#revise".data ++ C).length C hC]

theorem getReviseTag_shape (P C : List Char) (hP : '#' ∉ P) (hPne : P ≠ [])
    (hC : '#' ∉ C) (hb : bndOk C = true)
    (hu : startsWithLit ['_'] C = false) :
    MainTS.getReviseTagFromLine (P ++ ' ' :: ("#revise".data ++ C)) =
      some "#revise".data := by
  unfold MainTS.getReviseTagFromLine
  rw [reviseScan_shape P C hP hPne hC hb hu]
  rfl

theorem buildNext_blockid (body id dueISO : List Char)
    (hbody : ∀ c ∈ body, c ≠ '#' ∧ c ≠ '📅' ∧ c ≠ '⏳' ∧ c ≠ '➕' ∧ c ≠ '✅')
    (hid1 : id ≠ []) (hid2 : ∀ c ∈ id, isBlockIdChar c = true) :
    MainTS.buildNextOpenTaskLine
        ("- [x] ".data ++ body ++ ' ' :: ("#revise".data ++ ' ' :: '^' :: id))
        "#revise_7".data dueISO =
      ("- [ ] ".data ++ body ++ ' ' :: '^' :: id) ++
        ' ' :: '⏳' :: ' ' :: (dueISO ++ ' ' :: "#revise_7".data) := by
  have hline : "- [x] ".data ++ body ++ ' ' :: ("#revise".data ++ ' ' :: '^' :: id) =
      '-' :: ' ' :: '[' :: 'x' :: ']' :: ' ' ::
        (body ++ ' ' :: ("#revise".data ++ ' ' :: '^' :: id)) := rfl
  have hC : '#' ∉ (' ' :: '^' :: id) := by
    intro h
    simp only [List.mem_cons] at h
    rcases h with h | h | h
    · exact absurd h (by decide)
    · exact absurd h (by decide)
    · exact (blockid_facts (hid2 _ h)).1 rfl
  have hP2 : '#' ∉ ('-' :: ' ' :: '[' :: ' ' :: ']' :: ' ' :: body) := by
    intro h
    simp only [List.mem_cons] at h
    rcases h with h | h | h | h | h | h | h
    · exact absurd h (by decide)
    · exact absurd h (by decide)
    · exact absurd h (by decide)
    · exact absurd h (by decide)
    · exact absurd h (by decide)
    · exact absurd h (by decide)
    · exact (hbody _ h).1 rfl
  have hopen_strip : reviseStrip ('-' :: ' ' :: '[' :: ' ' :: ']' :: ' ' ::
      (body ++ ' ' :: ("#revise".data ++ ' ' :: '^' :: id))) =
      '-' :: ' ' :: '[' :: ' ' :: ']' :: ' ' :: (body ++ ' ' :: '^' :: id) :=
    reviseStrip_shape ('-' :: ' ' :: '[' :: ' ' :: ']' :: ' ' :: body)
      (' ' :: '^' :: id) hP2 (by simp) hC rfl rfl
  have hglyphs : ∀ g, (g = '📅' ∨ g = '⏳' ∨ g = '➕' ∨ g = '✅') →
      g ∉ ('-' :: ' ' :: '[' :: ' ' :: ']' :: ' ' :: (body ++ ' ' :: '^' :: id)) := by
    intro g hg hmem
    rcases mem_open_shape hmem with hb2 | hi | hl
    · rcases hbody g hb2 with ⟨_, h1, h2, h3, h4⟩
      rcases hg with rfl | rfl | rfl | rfl
      exacts [h1 rfl, h2 rfl, h3 rfl, h4 rfl]
    · rcases blockid_facts (hid2 g hi) with ⟨_, h1, h2, h3, h4⟩
      rcases hg with rfl | rfl | rfl | rfl
      exacts [h1 rfl, h2 rfl, h3 rfl, h4 rfl]
    · rcases hg with rfl | rfl | rfl | rfl <;> exact absurd hl (by decide)
  have hg1 : ∀ g ∈ (['📅', '⏳'] : List Char),
      g ∉ ('-' :: ' ' :: '[' :: ' ' :: ']' :: ' ' :: (body ++ ' ' :: '^' :: id)) := by
    intro g hg
    apply hglyphs
    simp only [List.mem_cons, List.not_mem_nil, or_false] at hg
    tauto
  have hg2 : ∀ g ∈ (['➕'] : List Char),
      g ∉ ('-' :: ' ' :: '[' :: ' ' :: ']' :: ' ' :: (body ++ ' ' :: '^' :: id)) := by
    intro g hg
    apply hglyphs
    simp only [List.mem_cons, List.not_mem_nil, or_false] at hg
    tauto
  have hg3 : ∀ g ∈ (['✅'] : List Char),
      g ∉ ('-' :: ' ' :: '[' :: ' ' :: ']' :: ' ' :: (body ++ ' ' :: '^' :: id)) := by
    intro g hg
    apply hglyphs
    simp only [List.mem_cons, List.not_mem_nil, or_false] at hg
    tauto
  have h6 : dropTrailWS ('-' :: ' ' :: '[' :: ' ' :: ']' :: ' ' ::
      (body ++ ' ' :: '^' :: id)) =
      '-' :: ' ' :: '[' :: ' ' :: ']' :: ' ' :: (body ++ ' ' :: '^' :: id) := by
    have h := dropTrailWS_nonws_tail
      ('-' :: ' ' :: '[' :: ' ' :: ']' :: ' ' :: (body ++ [' ', '^'])) id hid1
      (fun c hc => isBlockIdChar_not_ws (hid2 c hc))
    have he : ('-' :: ' ' :: '[' :: ' ' :: ']' :: ' ' :: (body ++ [' ', '^'])) ++ id =
        '-' :: ' ' :: '[' :: ' ' :: ']' :: ' ' :: (body ++ ' ' :: '^' :: id) := by
      simp
    rw [he] at h
    exact h
  rw [hline]
  simp only [MainTS.buildNextOpenTaskLine]
  rw [doneToOpen_dash_x, hopen_strip, stripGlyphDates_id hg1, stripGlyphDates_id hg2,
    stripGlyphDates_id hg3, h6,
    if_pos (taskOpenTest_dash_open (body ++ ' ' :: '^' :: id))]
  have hsh : ('-' :: ' ' :: '[' :: ' ' :: ']' :: ' ' :: (body ++ ' ' :: '^' :: id)) ++
      ' ' :: '⏳' :: ' ' :: (dueISO ++ ' ' :: "#revise_7".data) =
      '-' :: ((' ' :: '[' :: ' ' :: ']' :: ' ' :: (body ++ ' ' :: '^' :: id) ++
        ' ' :: '⏳' :: ' ' :: (dueISO ++ [' '])) ++ "#revise_7".data) := by
    simp
  rw [hsh, trimBoth_nonws '-'
    (' ' :: '[' :: ' ' :: ']' :: ' ' :: (body ++ ' ' :: '^' :: id) ++
      ' ' :: '⏳' :: ' ' :: (dueISO ++ [' '])) "#revise_7".data rfl
    (by decide) (by decide)]
  have e2 : "- [ ] ".data = ['-', ' ', '[', ' ', ']', ' '] := rfl
  have e3 : "#revise_7".data = ['#', 'r', 'e', 'v', 'i', 's', 'e', '_', '7'] := rfl
  simp [e2, e3]

/-- C8: the spec requires a trailing block-reference suffix to remain the
final token of the original line only, never copied onto the generated line.
The amended statement proved here: for every completed line with a clean
body, a `#revise` tag and a trailing `^id`, the `main.ts` engine marks the
original by appending a space and `#nextscheduled` after the whole line
(hence after `^id`), and `buildNextOpenTaskLine` copies the task body
including the `^id` suffix into the successor, so the generated successor
line still contains `^id`. -/
theorem blockid_copied_to_successor (now body id : List Char)
    (hbody : ∀ c ∈ body, c ≠ '#' ∧ c ≠ '📅' ∧ c ≠ '⏳' ∧ c ≠ '➕' ∧ c ≠ '✅')
    (hid1 : id ≠ []) (hid2 : ∀ c ∈ id, isBlockIdChar c = true) :
    MainTS.evalLine now
        ("- [x] ".data ++ body ++ ' ' :: ("#revise".data ++ ' ' :: '^' :: id)) =
      some ((("- [x] ".data ++ body ++ ' ' :: ("#revise".data ++ ' ' :: '^' :: id)) ++
               ' ' :: MainTS.NEXT_SCHEDULED_TAG),
            ("- [ ] ".data ++ body ++ ' ' :: '^' :: id) ++
              ' ' :: '⏳' :: ' ' :: (addDaysISO now 7 ++ ' ' :: "#revise_7".data)) ∧
    containsSub
        (("- [ ] ".data ++ body ++ ' ' :: '^' :: id) ++
          ' ' :: '⏳' :: ' ' :: (addDaysISO now 7 ++ ' ' :: "#revise_7".data))
        ('^' :: id) = true := by
  have hC : '#' ∉ (' ' :: '^' :: id) := by
    intro h
    simp only [List.mem_cons] at h
    rcases h with h | h | h
    · exact absurd h (by decide)
    · exact absurd h (by decide)
    · exact (blockid_facts (hid2 _ h)).1 rfl
  have hPx : '#' ∉ ('-' :: ' ' :: '[' :: 'x' :: ']' :: ' ' :: body) := by
    intro h
    simp only [List.mem_cons] at h
    rcases h with h | h | h | h | h | h | h
    · exact absurd h (by decide)
    · exact absurd h (by decide)
    · exact absurd h (by decide)
    · exact absurd h (by decide)
    · exact absurd h (by decide)
    · exact absurd h (by decide)
    · exact (hbody _ h).1 rfl
  have htd : taskDoneTest
      ("- [x] ".data ++ body ++ ' ' :: ("#revise".data ++ ' ' :: '^' :: id)) = true :=
    taskDoneTest_dash_x (body ++ ' ' :: ("#revise".data ++ ' ' :: '^' :: id))
  have hA : '#' ∉ ('-' :: ' ' :: '[' :: 'x' :: ']' :: ' ' :: (body ++ [' '])) := by
    intro h
    simp only [List.mem_cons, List.mem_append, List.not_mem_nil, or_false] at h
    rcases h with h | h | h | h | h | h | h | h
    · exact absurd h (by decide)
    · exact absurd h (by decide)
    · exact absurd h (by decide)
    · exact absurd h (by decide)
    · exact absurd h (by decide)
    · exact absurd h (by decide)
    · exact (hbody _ h).1 rfl
    · exact absurd h (by decide)
  have hR : '#' ∉ ('r' :: ("evise".data ++ ' ' :: '^' :: id)) := by
    intro h
    simp only [List.mem_cons, List.mem_append, List.not_mem_nil, or_false] at h
    rcases h with h | h | h | h | h
    · exact absurd h (by decide)
    · exact absurd h (by decide)
    · exact absurd h (by decide)
    · exact absurd h (by decide)
    · exact (blockid_facts (hid2 _ h)).1 rfl
  have hcsub : containsSub
      ("- [x] ".data ++ body ++ ' ' :: ("#revise".data ++ ' ' :: '^' :: id))
      MainTS.NEXT_SCHEDULED_TAG = false := by
    have ex1 : "- [x] ".data = ['-', ' ', '[', 'x', ']', ' '] := rfl
    have ex2 : "#revise".data = '#' :: 'r' :: "evise".data := rfl
    have hAeq : "- [x] ".data ++ body ++ ' ' :: ("#revise".data ++ ' ' :: '^' :: id) =
        ('-' :: ' ' :: '[' :: 'x' :: ']' :: ' ' :: (body ++ [' '])) ++
          '#' :: ('r' :: ("evise".data ++ ' ' :: '^' :: id)) := by
      simp [ex1, ex2]
    have htagx : MainTS.NEXT_SCHEDULED_TAG = '#' :: 'n' :: "extscheduled".data := rfl
    rw [hAeq, htagx, containsSub_skip ('n' :: "extscheduled".data) hA,
      containsSub_cons, startsWithLit_sentinel_r,
      containsSub_none ('n' :: "extscheduled".data) hR]
    rfl
  have htag : MainTS.getReviseTagFromLine
      ("- [x] ".data ++ body ++ ' ' :: ("#revise".data ++ ' ' :: '^' :: id)) =
      some "#revise".data :=
    getReviseTag_shape ('-' :: ' ' :: '[' :: 'x' :: ']' :: ' ' :: body)
      (' ' :: '^' :: id) hPx (by simp) hC rfl rfl
  have hstage : MainTS.stageLookup (toLowerL "#revise".data) =
      some ⟨"#revise_7".data, 7⟩ := rfl
  have hcomp : completionDateOf
      ("- [x] ".data ++ body ++ ' ' :: ("#revise".data ++ ' ' :: '^' :: id)) = none := by
    apply completionDateOf_none
    intro h
    have h2 : '✅' ∈ '-' :: ' ' :: '[' :: 'x' :: ']' :: ' ' ::
        (body ++ ' ' :: '#' :: 'r' :: 'e' :: 'v' :: 'i' :: 's' :: 'e' ::
          ' ' :: '^' :: id) := h
    rcases mem_done_shape h2 with hb | hi | hl
    · exact (hbody _ hb).2.2.2.2 rfl
    · exact (blockid_facts (hid2 _ hi)).2.2.2.2 rfl
    · exact absurd hl (by decide)
  have hmark : dropTrailWS
      (("- [x] ".data ++ body ++ ' ' :: ("#revise".data ++ ' ' :: '^' :: id)) ++
        ' ' :: MainTS.NEXT_SCHEDULED_TAG) =
      ("- [x] ".data ++ body ++ ' ' :: ("#revise".data ++ ' ' :: '^' :: id)) ++
        ' ' :: MainTS.NEXT_SCHEDULED_TAG := by
    have h := dropTrailWS_nonws_tail
      ((("- [x] ".data ++ body ++ ' ' :: ("#revise".data ++ ' ' :: '^' :: id)) ++ [' ']))
      MainTS.NEXT_SCHEDULED_TAG (by decide) (by decide)
    have he : ((("- [x] ".data ++ body ++ ' ' :: ("#revise".data ++ ' ' :: '^' :: id)) ++
        [' ']) ++ MainTS.NEXT_SCHEDULED_TAG) =
        ("- [x] ".data ++ body ++ ' ' :: ("#revise".data ++ ' ' :: '^' :: id)) ++
          ' ' :: MainTS.NEXT_SCHEDULED_TAG := by
      simp
    rw [he] at h
    exact h
  have hbn := buildNext_blockid body id (addDaysISO now 7) hbody hid1 hid2
  refine ⟨?_, ?_⟩
  · simp only [MainTS.evalLine, htd, Bool.not_true, Bool.false_eq_true, if_false,
      hcsub, htag, hstage, MainTS.getCompletionBaseDateISO, hcomp]
    rw [hmark, hbn]
  · have he2 : ("- [ ] ".data ++ body ++ ' ' :: '^' :: id) ++
        ' ' :: '⏳' :: ' ' :: (addDaysISO now 7 ++ ' ' :: "#revise_7".data) =
        ("- [ ] ".data ++ (body ++ [' '])) ++ (('^' :: id) ++
          ' ' :: '⏳' :: ' ' :: (addDaysISO now 7 ++ ' ' :: "#revise_7".data)) := by
      simp
    rw [he2]
    exact containsSub_mid ("- [ ] ".data ++ (body ++ [' '])) ('^' :: id)
      (' ' :: '⏳' :: ' ' :: (addDaysISO now 7 ++ ' ' :: "#revise_7".data))

/-- Closed instance of the C8 theorem at a concrete line, completion-free
body `Task` and block id `abc123`. -/
theorem blockid_copied_to_successor_witness :
    MainTS.evalLine "2024-03-01".data
        ("- [x] ".data ++ "Task".data ++ ' ' :: ("#revise".data ++ ' ' :: '^' :: "abc123".data)) =
      some ((("- [x] ".data ++ "Task".data ++ ' ' :: ("#revise".data ++ ' ' :: '^' :: "abc123".data)) ++
               ' ' :: MainTS.NEXT_SCHEDULED_TAG),
            ("- [ ] ".data ++ "Task".data ++ ' ' :: '^' :: "abc123".data) ++
              ' ' :: '⏳' :: ' ' :: (addDaysISO "2024-03-01".data 7 ++ ' ' :: "#revise_7".data)) ∧
    containsSub
        (("- [ ] ".data ++ "Task".data ++ ' ' :: '^' :: "abc123".data) ++
          ' ' :: '⏳' :: ' ' :: (addDaysISO "2024-03-01".data 7 ++ ' ' :: "#revise_7".data))
        ('^' :: "abc123".data) = true :=
  blockid_copied_to_successor "2024-03-01".data "Task".data "abc123".data
    (by decide) (by decide) (by decide)

/-- Concrete refutation of the literal C8 claim: the successor generated for
a completed line ending in `^abc123` still contains the suffix `^abc123`. -/
theorem blockid_copied_counterexample :
    MainTS.evalLine "2024-02-10".data "- [x] Water plants #revise ^abc123".data =
      some ("- [x] Water plants #revise ^abc123 #nextscheduled".data,
            "- [ ] Water plants ^abc123 ⏳ 2024-02-17 #revise_7".data) ∧
    containsSub "- [ ] Water plants ^abc123 ⏳ 2024-02-17 #revise_7".data
      "^abc123".data = true :=
  ⟨by decide, by decide⟩
